import Mathlib

/-!
# Conway's Game of Life on a paged bitmap (`components/cgol/cgol.c`)

A shallow embedding of the board engine: the board record, the creation
functions with the global board table, the 3-bit window extraction, the rule
evaluation and the generation step, followed by the properties proved about
them.

Conventions of the embedding:
* a `uint8_t*` is an address (a natural number) into a flat byte memory,
  `NULL` is `none`;
* a `uint8_t` value is a natural number, truncated `% 256` where the C code
  stores or converts one;
* the `int` arguments of the creation functions are integers; once the guards
  `width <= 0` / `height <= 0` have been passed they are positive and are
  kept as natural numbers.
-/

namespace Cgol

/-! ## Data model -/

/-- Byte-addressed memory: the byte stored at every address. -/
abbrev Mem := Nat → Nat

/-- The record `struct cgol_s`. The three `int` fields are only ever written
by `init`, after its guards, hence with positive values. Pointers are
addresses; `internal_storage` is `none` for `NULL`. -/
structure cgol_s where
  width : Nat
  height : Nat
  num_pages : Nat
  state : Nat
  temp : Nat
  internal_storage : Option Nat
deriving DecidableEq, Repr

/-- The constant `CGOL_MAX_GAMES` of `cgol.h`. -/
def CGOL_MAX_GAMES : Nat := 1

/-- Largest value of the C type `int` (32 bits). -/
def INT_MAX : Int := 2147483647

/-- The C library call `memcpy(dst, src, n)` on non-overlapping regions. -/
def memcpy (m : Mem) (dst src n : Nat) : Mem :=
  fun a => if dst ≤ a ∧ a < dst + n then m (src + (a - dst)) else m a

/-- A store of a `uint8_t`: the value is truncated to 8 bits. -/
def store (m : Mem) (a v : Nat) : Mem :=
  fun b => if b = a then v % 256 else m b

/-! ## Rule evaluation -/

/-- The loop `while(bits) { if(bits & 0x1) ++neighbors; bits >>= 1; }` of
`apply_rules`, run for at most `fuel` iterations. -/
def count_loop : Nat → Nat → Nat → Nat
  | 0, _, neighbors => neighbors
  | fuel + 1, bits, neighbors =>
    if bits = 0 then neighbors
    else count_loop fuel (bits >>> 1) (if bits &&& 0x1 ≠ 0 then neighbors + 1 else neighbors)

/-- The function `apply_rules`. Its arguments are `uint8_t`, so each counting
loop ends within 8 iterations. -/
def apply_rules (left_3_bits middle_3_bits right_3_bits : Nat) : Bool :=
  let is_living : Bool := decide ((middle_3_bits &&& 0x2) > 0)
  let neighbors := 0
  let neighbors := count_loop 8 left_3_bits neighbors
  let neighbors := if middle_3_bits &&& 0x1 ≠ 0 then neighbors + 1 else neighbors
  let neighbors := if middle_3_bits &&& 0x4 ≠ 0 then neighbors + 1 else neighbors
  let neighbors := count_loop 8 right_3_bits neighbors
  let result := is_living
  let result := if is_living && decide (neighbors < 2) then false else result
  let result := if is_living && decide (neighbors > 3) then false else result
  let result := if !is_living && decide (neighbors = 3) then true else result
  result

/-! ## Window extraction -/

/-- The function `get_3_bits`: the 3-bit window of column `x` around row `y`,
read from the page at address `page` and, at a page boundary, from the
adjacent page when its pointer is not `NULL`. -/
def get_3_bits (m : Mem) (page : Nat) (page_up page_down : Option Nat) (x y : Nat) : Nat :=
  let bit_offset := y &&& 0x7
  let byte := m (page + x)
  if bit_offset = 0 then
    let prev_byte := match page_up with
      | some p => m (p + x)
      | none => 0
    ((byte <<< 1) &&& 0x6) ||| ((prev_byte >>> 7) &&& 0x1)
  else if bit_offset = 7 then
    let next_byte := match page_down with
      | some p => m (p + x)
      | none => 0
    ((byte >>> 6) &&& 0x03) ||| ((next_byte <<< 2) &&& 0x4)
  else
    (byte >>> (bit_offset - 1)) &&& 0x7

/-- The addresses `get_3_bits` dereferences, in order. -/
def get_3_bits_reads (page : Nat) (page_up page_down : Option Nat) (x y : Nat) : List Nat :=
  let bit_offset := y &&& 0x7
  if bit_offset = 0 then
    match page_up with
    | some p => [page + x, p + x]
    | none => [page + x]
  else if bit_offset = 7 then
    match page_down with
    | some p => [page + x, p + x]
    | none => [page + x]
  else
    [page + x]

/-! ## Generation step -/

/-- The local variables of `cgol_take_turn` that live across the row loop,
together with the memory. -/
structure turn_vars where
  mem : Mem
  page : Nat
  page_up : Option Nat
  page_down : Option Nat
  new_page : Nat
  mask : Nat
  page_index : Nat

/-- The body of the column loop of `cgol_take_turn` for column `x` of row `y`
(source lines 144 to 152): three windows, the rule, and the write of one bit
of `new_page[x]`. The windows are converted to `uint8_t`; `~mask` is the
complement of the promoted 32-bit `int`. -/
def cell_step (ctx : cgol_s) (page : Nat) (page_up page_down : Option Nat)
    (new_page mask y x : Nat) (m : Mem) : Mem :=
  let left_3_bits := (if x > 0 then get_3_bits m page page_up page_down (x - 1) y else 0) % 256
  let middle_3_bits := (get_3_bits m page page_up page_down x y) % 256
  let right_3_bits :=
    (if (x : Int) < (ctx.width : Int) - 1 then get_3_bits m page page_up page_down (x + 1) y
     else 0) % 256
  if apply_rules left_3_bits middle_3_bits right_3_bits then
    store m (new_page + x) (m (new_page + x) ||| mask)
  else
    store m (new_page + x) (m (new_page + x) &&& (0xFFFFFFFF ^^^ mask))

/-- The column loop `for(int x = 0; x < n; ++x)` of row `y`: the memory after
the iterations `x = 0, ..., n - 1`. -/
def row_loop (ctx : cgol_s) (page : Nat) (page_up page_down : Option Nat)
    (new_page mask y : Nat) : Nat → Mem → Mem
  | 0, m => m
  | n + 1, m =>
    cell_step ctx page page_up page_down new_page mask y n
      (row_loop ctx page page_up page_down new_page mask y n m)

/-- One iteration of the row loop of `cgol_take_turn` for row `y`: the column
loop, then the advance of the mask and, when the `uint8_t` mask has wrapped to
zero, of the page pointers (source lines 155 to 163). -/
def row_step (ctx : cgol_s) (y : Nat) (v : turn_vars) : turn_vars :=
  let mem := row_loop ctx v.page v.page_up v.page_down v.new_page v.mask y ctx.width v.mem
  let mask := (v.mask <<< 1) % 256
  if mask = 0 then
    let page_index := v.page_index + 1
    let page := v.page + ctx.width
    { mem := mem
      page := page
      page_up := some (page - ctx.width)
      page_down :=
        if (page_index : Int) < (ctx.num_pages : Int) - 1 then some (page + ctx.width) else none
      new_page := v.new_page + ctx.width
      mask := 0x1
      page_index := page_index }
  else
    { v with mem := mem, mask := mask }

/-- The row loop `for(int y = 0; y < n; ++y)`: the variables after the
iterations `y = 0, ..., n - 1`. -/
def turn_loop (ctx : cgol_s) : Nat → turn_vars → turn_vars
  | 0, v => v
  | n + 1, v => row_step ctx n (turn_loop ctx n v)

/-- The variables of `cgol_take_turn` when the row loop is entered (source
lines 135 to 141): the snapshot has been copied and `page_down` points one
page past `temp` whatever the number of pages. -/
def turn_init (ctx : cgol_s) (m : Mem) : turn_vars :=
  { mem := memcpy m ctx.temp ctx.state (ctx.num_pages * ctx.width)
    page := ctx.temp
    page_up := none
    page_down := some (ctx.temp + ctx.width)
    new_page := ctx.state
    mask := 0x1
    page_index := 0 }

/-- The function `cgol_take_turn`: the memory after one generation step. -/
def cgol_take_turn (ctx : cgol_s) (m : Mem) : Mem :=
  (turn_loop ctx ctx.height (turn_init ctx m)).mem

/-- The addresses read by the windows of cell `(x, y)` in the column loop. -/
def cell_reads (ctx : cgol_s) (page : Nat) (page_up page_down : Option Nat) (y x : Nat) :
    List Nat :=
  (if x > 0 then get_3_bits_reads page page_up page_down (x - 1) y else [])
    ++ get_3_bits_reads page page_up page_down x y
    ++ (if (x : Int) < (ctx.width : Int) - 1 then get_3_bits_reads page page_up page_down (x + 1) y
        else [])

/-- The addresses the windows of row `y` read, with the page pointers the row
loop holds when it reaches row `y`. -/
def row_reads (ctx : cgol_s) (m : Mem) (y : Nat) : List Nat :=
  let v := turn_loop ctx y (turn_init ctx m)
  (List.range ctx.width).flatMap (cell_reads ctx v.page v.page_up v.page_down y)

/-- Every address `get_3_bits` dereferences during `cgol_take_turn`. -/
def cgol_take_turn_reads (ctx : cgol_s) (m : Mem) : List Nat :=
  (List.range ctx.height).flatMap (row_reads ctx m)

/-- The function `cgol_get_state`: the address of the state buffer. -/
def cgol_get_state (ctx : cgol_s) : Nat := ctx.state

/-! ## Creation -/

/-- The global variables `games` (the board table, indexed by slot) and
`games_alloced`, together with the blocks `malloc` has handed out, each with
its address and its size in bytes. -/
structure globals where
  games : Nat → cgol_s
  games_alloced : Nat
  heap : List (Nat × Nat)

/-- The static function `init`. A handle is the index of a slot of `games`,
`none` for `NULL`. `malloc` gives the answer of the allocator to a request of
the given size (`none` for `NULL`). The result is `none` when the evaluation
overflows the type `int` in one of the products `2 * width * num_pages` or
`width * num_pages`, where C leaves the behaviour undefined; otherwise it is
the returned handle and the globals after the call. -/
def init (malloc : Nat → Option Nat) (g : globals) (width height : Int)
    (static_storage : Option Nat) : Option (Option Nat × globals) :=
  if width ≤ 0 then some (none, g)
  else if height ≤ 0 then some (none, g)
  else if g.games_alloced ≥ CGOL_MAX_GAMES then some (none, g)
  else
    let ctx := g.games_alloced
    let g := { g with games_alloced := g.games_alloced + 1 }
    let num_pages := height.toNat >>> 3
    let page_partial := height.toNat &&& 0x7
    let num_pages := if page_partial ≠ 0 then num_pages + 1 else num_pages
    let finish (g : globals) (internal_storage : Option Nat) (storage : Nat) :
        Option (Option Nat × globals) :=
      if width * (num_pages : Int) > INT_MAX then none
      else
        some (some ctx,
          { g with
            games := Function.update g.games ctx
              { width := width.toNat
                height := height.toNat
                num_pages := num_pages
                internal_storage := internal_storage
                state := storage
                temp := storage + width.toNat * num_pages } })
    match static_storage with
    | none =>
      if 2 * width * (num_pages : Int) > INT_MAX then none
      else
        match malloc (2 * width.toNat * num_pages) with
        | none => some (none, g)
        | some p =>
          finish { g with heap := (p, 2 * width.toNat * num_pages) :: g.heap } (some p) p
    | some p => finish g none p

/-- The function `cgol_init`. -/
def cgol_init (malloc : Nat → Option Nat) (g : globals) (width height : Int) :
    Option (Option Nat × globals) :=
  init malloc g width height none

/-- The function `cgol_init_static`. -/
def cgol_init_static (malloc : Nat → Option Nat) (g : globals) (width height : Int)
    (static_storage : Option Nat) : Option (Option Nat × globals) :=
  match static_storage with
  | none => some (none, g)
  | some p => init malloc g width height (some p)

/-- The globals at program start: no slot handed out, nothing allocated, the
table zero-initialised. -/
def globals_at_start : globals :=
  { games := fun _ => ⟨0, 0, 0, 0, 0, none⟩
    games_alloced := 0
    heap := [] }

/-! ## Specification-side definitions and the vocabulary of the proofs -/

/-- The byte a nullable page pointer gives for column `x`, `0` for `NULL`. -/
def opt_byte (m : Mem) (p : Option Nat) (x : Nat) : Nat :=
  match p with
  | some q => m (q + x)
  | none => 0

/-- Bit `k` of the window of `get_3_bits`, spelled out per case of `y % 8`. -/
def window_bit (m : Mem) (page : Nat) (pu pd : Option Nat) (x y k : Nat) : Bool :=
  if y % 8 = 0 then
    (if k = 0 then (opt_byte m pu x).testBit 7 else (m (page + x)).testBit (k - 1))
  else if y % 8 = 7 then
    (if k = 2 then (opt_byte m pd x).testBit 0 else (m (page + x)).testBit (6 + k))
  else (m (page + x)).testBit (y % 8 - 1 + k)

/-- The standard rule of Life: a live cell survives with 2 or 3 live
neighbours, a dead cell becomes alive with exactly 3. -/
def life_rule (alive : Bool) (n : Nat) : Bool :=
  if alive then decide (n = 2 ∨ n = 3) else decide (n = 3)

/-- Number of set bits among the lowest three of a window. -/
def pop3 (b : Nat) : Nat :=
  (b.testBit 0).toNat + (b.testBit 1).toNat + (b.testBit 2).toNat

/-- The page pointers and the mask the row loop holds when it reaches row `y`
(that is, after `y` iterations), as `row_step` computes them. -/
def vars_at (ctx : cgol_s) (y : Nat) (mem : Mem) : turn_vars :=
  { mem := mem
    page := ctx.temp + y / 8 * ctx.width
    page_up := if y / 8 = 0 then none else some (ctx.temp + y / 8 * ctx.width - ctx.width)
    page_down :=
      if y / 8 = 0 then some (ctx.temp + ctx.width)
      else if ((y / 8 : Nat) : Int) < (ctx.num_pages : Int) - 1 then
        some (ctx.temp + y / 8 * ctx.width + ctx.width)
      else none
    new_page := ctx.state + y / 8 * ctx.width
    mask := 2 ^ (y % 8)
    page_index := y / 8 }

/-- A board as `init` leaves it: positive dimensions, `num_pages` pages of 8
rows covering the height, and the scratch buffer right after the state
buffer. -/
def well_formed (ctx : cgol_s) : Prop :=
  0 < ctx.width ∧ 0 < ctx.height
    ∧ ctx.num_pages = (ctx.height >>> 3) + (if ctx.height &&& 0x7 ≠ 0 then 1 else 0)
    ∧ ctx.temp = ctx.state + ctx.width * ctx.num_pages

instance (ctx : cgol_s) : Decidable (well_formed ctx) := by
  unfold well_formed
  infer_instance

/-- The memory of `cgol_take_turn` when the row loop reaches row `y`, from the
memory `mc` it holds on entry. -/
def mem_rows (ctx : cgol_s) (mc : Mem) : Nat → Mem
  | 0 => mc
  | y + 1 =>
    row_loop ctx (vars_at ctx y mc).page (vars_at ctx y mc).page_up (vars_at ctx y mc).page_down
      (vars_at ctx y mc).new_page (vars_at ctx y mc).mask y ctx.width (mem_rows ctx mc y)

/-- The outcome of the rule for column `x` of row `y` when the windows are read
from the memory `mc` through the given page pointers. -/
def cell_rule (ctx : cgol_s) (mc : Mem) (page : Nat) (page_up page_down : Option Nat)
    (y x : Nat) : Bool :=
  apply_rules
    ((if x > 0 then get_3_bits mc page page_up page_down (x - 1) y else 0) % 256)
    ((get_3_bits mc page page_up page_down x y) % 256)
    ((if (x : Int) < (ctx.width : Int) - 1 then get_3_bits mc page page_up page_down (x + 1) y
      else 0) % 256)

/-- The outcome of the rule for cell `(x, y)` when the windows are read from
the memory `mc` with the page pointers of row `y`. -/
def next_bit (ctx : cgol_s) (mc : Mem) (y x : Nat) : Bool :=
  cell_rule ctx mc (vars_at ctx y mc).page (vars_at ctx y mc).page_up
    (vars_at ctx y mc).page_down y x

/-- The byte written back by one cell of the column loop. -/
def write_bit (v mask : Nat) (b : Bool) : Nat :=
  (if b then v ||| mask else v &&& (0xFFFFFFFF ^^^ mask)) % 256

/-- Bit `r % 8` of the state byte of page `r / 8`, column `c`. -/
def state_bit (ctx : cgol_s) (m : Mem) (c r : Nat) : Bool :=
  (m (ctx.state + r / 8 * ctx.width + c)).testBit (r % 8)

/-- Cell `(x, y)` of the board is alive: it lies in `[0,width) x [0,height)` and
its bit of the state buffer is set. Every cell outside the board is dead. -/
def alive (ctx : cgol_s) (m : Mem) (x y : Int) : Bool :=
  decide (0 ≤ x ∧ x < ctx.width ∧ 0 ≤ y ∧ y < ctx.height) && state_bit ctx m x.toNat y.toNat

/-- The bit the state buffer stores for `(x, y)`, over all rows of all pages:
`[0,width) x [0, 8 * num_pages)`, the unused rows of the last page included.
Outside of that range the value is `false`. -/
def stored (ctx : cgol_s) (m : Mem) (x y : Int) : Bool :=
  decide (0 ≤ x ∧ x < ctx.width ∧ 0 ≤ y ∧ y < 8 * ctx.num_pages)
    && state_bit ctx m x.toNat y.toNat

/-- The value the windows of `cgol_take_turn` take for `(x, y)`: `false` left
of column 0, right of the last column and above row 0, the stored bit on the
pages of the board, and below the last page `false`, except that the row below
the first page is always read through `page_down = temp + width`, which lies
after the scratch buffer when the board has a single page. -/
def seen (ctx : cgol_s) (m : Mem) (x y : Int) : Bool :=
  decide (0 ≤ x ∧ x < ctx.width ∧ 0 ≤ y) &&
    (if y.toNat / 8 < ctx.num_pages then state_bit ctx m x.toNat y.toNat
     else if y.toNat / 8 = 1 then
       (m (ctx.temp + ctx.width + x.toNat)).testBit (y.toNat % 8)
     else false)

/-- Number of live cells among the 8 neighbours of `(x, y)`. -/
def neighbours (f : Int → Int → Bool) (x y : Int) : Nat :=
  (f (x - 1) (y - 1)).toNat + (f (x - 1) y).toNat + (f (x - 1) (y + 1)).toNat
    + ((f x (y - 1)).toNat + (f x (y + 1)).toNat)
    + ((f (x + 1) (y - 1)).toNat + (f (x + 1) y).toNat + (f (x + 1) (y + 1)).toNat)

/-- The pattern of two vertically adjacent cells, at the origin. -/
def pair_at_origin (d e : Int) : Bool := decide (d = 0 ∧ (e = 0 ∨ e = 1))

/-- The state buffer holds exactly the pattern `P`: every state byte is a
byte and bit `j` of the byte of page `p`, column `x` is `P x (8 * p + j)`. -/
def holds (ctx : cgol_s) (m : Mem) (P : Int → Int → Bool) : Prop :=
  ∀ p < ctx.num_pages, ∀ x < ctx.width,
    m (ctx.state + p * ctx.width + x) < 256
      ∧ ∀ j < 8, (m (ctx.state + p * ctx.width + x)).testBit j = P (x : Nat) ((8 * p + j : Nat) : Int)

instance (ctx : cgol_s) (m : Mem) (P : Int → Int → Bool) : Decidable (holds ctx m P) := by
  unfold holds
  infer_instance

/-- The position `(c, r)` lies on the board. -/
def on_board (ctx : cgol_s) (c r : Int) : Prop :=
  0 ≤ c ∧ c < ctx.width ∧ 0 ≤ r ∧ r < ctx.height

/-- The horizontal blinker centred at the origin. -/
def blinker_row (d e : Int) : Bool := decide (e = 0 ∧ -1 ≤ d ∧ d ≤ 1)

/-- The vertical blinker centred at the origin. -/
def blinker_col (d e : Int) : Bool := decide (d = 0 ∧ -1 ≤ e ∧ e ≤ 1)

/-- The 2x2 block with its top left cell at the origin. -/
def block_2x2 (d e : Int) : Bool := decide (0 ≤ d ∧ d ≤ 1 ∧ 0 ≤ e ∧ e ≤ 1)

/-- A pattern moved to `(a, b)`. -/
def moved (G : Int → Int → Bool) (a b : Int) : Int → Int → Bool :=
  fun c r => G (c - a) (r - b)

/-! ## Concrete boards -/

/-- The board `init` builds for positive `w` and `h` on static storage at
address 0: the state buffer at address 0, the scratch buffer right after
it. -/
def board_at_zero (w h : Nat) : cgol_s :=
  { width := w
    height := h
    num_pages := (h >>> 3) + (if h &&& 0x7 ≠ 0 then 1 else 0)
    state := 0
    temp := 0 + w * ((h >>> 3) + (if h &&& 0x7 ≠ 0 then 1 else 0))
    internal_storage := none }

/-- The memory that holds the given bytes from address 0 on and zero after
them. -/
def mem_of (bytes : List Nat) : Mem := fun a => bytes.getD a 0

/-- The globals after `cgol_init(128, 64)` at program start, when `malloc`
returns address 100. -/
def globals_after_128x64 : globals :=
  { games := Function.update globals_at_start.games 0
      { width := 128
        height := 64
        num_pages := 8
        state := 100
        temp := 1124
        internal_storage := some 100 }
    games_alloced := 1
    heap := [(100, 2048)] }

/-- The state bytes of a board, in address order. -/
def state_bytes (ctx : cgol_s) (m : Mem) : List Nat :=
  (List.range (ctx.width * ctx.num_pages)).map (fun i => m (ctx.state + i))

/-! ## Destruction and calls through a handle -/

/-- The C library call `free(p)` on the log of live blocks: `free(NULL)` does
nothing, freeing a live block removes it, and freeing an address that is not
a live block is undefined (`none`). -/
def free (heap : List (Nat × Nat)) (p : Option Nat) : Option (List (Nat × Nat)) :=
  match p with
  | none => some heap
  | some a =>
    if heap.any (fun b => b.1 = a) then some (heap.filter (fun b => b.1 ≠ a)) else none

/-- The function `cgol_free`. The argument is the value of the caller's handle
variable `*ctx` (`none` for `NULL`); the result is the value the call leaves
in that variable and the globals after the call, or `none` when `free` is
undefined. The slot and `games_alloced` are not touched. -/
def cgol_free (g : globals) (ctx : Option Nat) : Option (Option Nat × globals) :=
  match ctx with
  | none => some (none, g)
  | some i =>
    match free g.heap (g.games i).internal_storage with
    | none => none
    | some heap => some (none, { g with heap := heap })

/-- A call of one of the three lifecycle functions of `cgol.h`. -/
inductive lifecycle_call where
  | call_init (malloc : Nat → Option Nat) (width height : Int)
  | call_init_static (malloc : Nat → Option Nat) (width height : Int)
      (static_storage : Option Nat)
  | call_free (ctx : Option Nat)

/-- The globals after one lifecycle call, `none` when the call is undefined. -/
def run_call (g : globals) : lifecycle_call → Option globals
  | .call_init malloc width height => (cgol_init malloc g width height).map (fun r => r.2)
  | .call_init_static malloc width height static_storage =>
    (cgol_init_static malloc g width height static_storage).map (fun r => r.2)
  | .call_free ctx => (cgol_free g ctx).map (fun r => r.2)

/-- The globals after a sequence of lifecycle calls, in order. -/
def run_calls (g : globals) : List lifecycle_call → Option globals
  | [] => some g
  | c :: cs => (run_call g c).bind (fun g1 => run_calls g1 cs)

/-- The function `cgol_take_turn` called with a handle: the handle is
dereferenced (`ctx->temp`, source line 135) without any check, which is
undefined (`none`) for `NULL`. -/
def cgol_take_turn_ptr (g : globals) (ctx : Option Nat) (m : Mem) : Option Mem :=
  match ctx with
  | none => none
  | some i => some (cgol_take_turn (g.games i) m)

/-- The function `cgol_get_state` called with a handle: `return ctx->state`
without any check, undefined (`none`) for `NULL`. -/
def cgol_get_state_ptr (g : globals) (ctx : Option Nat) : Option Nat :=
  match ctx with
  | none => none
  | some i => some (cgol_get_state (g.games i))

/-- The globals after `cgol_init(3, 5)` at program start when `malloc` returns
`NULL`: the slot counter has advanced, the table is as before. -/
def globals_after_failed_malloc : globals :=
  { games := globals_at_start.games
    games_alloced := 1
    heap := [] }

/-- The globals after `cgol_init(128, 64)` and `cgol_free` of its handle. -/
def globals_after_free : globals :=
  { games := globals_after_128x64.games
    games_alloced := 1
    heap := [] }

/-! ## The display driver (`components/ssd1306/ssd1306.c`) -/

/-- What a call of a driver function does. `invalid_arg`: the function returns
`ESP_ERR_INVALID_ARG` from one of its own guards and nothing is queued for the
bus. `transmitted bytes`: the function queues a start condition, these bytes
and a stop condition, runs the transaction with `i2c_master_cmd_begin` and
returns its result. -/
inductive ssd1306_outcome where
  | invalid_arg
  | transmitted (bytes : List Nat)
deriving DecidableEq, Repr

/-- The enumerator `address_mode_page` of `memory_address_mode_t`
(`address_mode_horizontal` is 0, `address_mode_vertical` is 1). -/
def address_mode_page : Nat := 2

/-- The function `ssd1306_send_command`; the handle is `none` for `NULL`,
`command_bytes` are the `len` bytes passed. -/
def ssd1306_send_command (ctx : Option Nat) (command_bytes : List Nat) : ssd1306_outcome :=
  if ctx = none then .invalid_arg
  else .transmitted ([0x78, 0x00] ++ command_bytes)

/-- The function `ssd1306_send_page_data`; `page_start` and `column_start` are
`uint8_t` values, each byte written is converted to `uint8_t`. -/
def ssd1306_send_page_data (ctx : Option Nat) (page_start column_start : Nat)
    (data_bytes : List Nat) : ssd1306_outcome :=
  if ctx = none then .invalid_arg
  else if page_start > 63 then .invalid_arg
  else if column_start > 127 then .invalid_arg
  else
    .transmitted
      ([0x78, 0x80, 0x20, 0x80, address_mode_page % 256,
        0x80, (0x00 ||| (column_start &&& 0xf)) % 256,
        0x80, (0x00 ||| (column_start &&& 0xf)) % 256,
        0x80, (0x00 ||| (column_start >>> 4)) % 256,
        0x80, (0xB0 ||| page_start) % 256,
        0x40] ++ data_bytes)

/-- The function `ssd1306_set_page_address`; `start` and `end` are `unsigned`
values. -/
def ssd1306_set_page_address (ctx : Option Nat) (start stop : Nat) : ssd1306_outcome :=
  if ctx = none then .invalid_arg
  else if start > 7 then .invalid_arg
  else if stop > 7 then .invalid_arg
  else ssd1306_send_command ctx [0x22, start % 256, stop % 256]

/-- The function `ssd1306_set_mux_ratio`; `mux_ratio` is an `int`, the second
command byte is `(uint8_t)(mux_ratio - 1)`. -/
def ssd1306_set_mux_ratio (ctx : Option Nat) (mux_ratio : Int) : ssd1306_outcome :=
  if mux_ratio < 16 then .invalid_arg
  else if mux_ratio > 64 then .invalid_arg
  else if ctx = none then .invalid_arg
  else ssd1306_send_command ctx [0xA8, ((mux_ratio - 1) % 256).toNat]

/-! ## The neighbour count of the rule -/

/-- The value of the local variable `neighbors` of `apply_rules` when the rule
is evaluated (source lines 99 to 111): the two counting loops and the two
tests of the middle window, in source order. -/
def apply_rules_neighbors (left_3_bits middle_3_bits right_3_bits : Nat) : Nat :=
  let neighbors := 0
  let neighbors := count_loop 8 left_3_bits neighbors
  let neighbors := if middle_3_bits &&& 0x1 ≠ 0 then neighbors + 1 else neighbors
  let neighbors := if middle_3_bits &&& 0x4 ≠ 0 then neighbors + 1 else neighbors
  let neighbors := count_loop 8 right_3_bits neighbors
  neighbors

/-! # Theorems -/

/-! ## Bits of the windows -/

theorem and_seven (y : Nat) : y &&& 0x7 = y % 8 :=
  Nat.and_pow_two_sub_one_eq_mod y 3

theorem get_3_bits_lt (m : Mem) (page : Nat) (pu pd : Option Nat) (x y : Nat) :
    get_3_bits m page pu pd x y < 8 := by
  unfold get_3_bits
  simp only
  split_ifs
  · exact Nat.or_lt_two_pow (n := 3) (Nat.and_lt_two_pow _ (by decide)) (Nat.and_lt_two_pow _ (by decide))
  · exact Nat.or_lt_two_pow (n := 3) (Nat.and_lt_two_pow _ (by decide)) (Nat.and_lt_two_pow _ (by decide))
  · exact Nat.and_lt_two_pow (n := 3) _ (by decide)

theorem get_3_bits_eq (m : Mem) (page : Nat) (pu pd : Option Nat) (x y : Nat) :
    get_3_bits m page pu pd x y =
      if y % 8 = 0 then ((m (page + x) <<< 1) &&& 0x6) ||| ((opt_byte m pu x >>> 7) &&& 0x1)
      else if y % 8 = 7 then ((m (page + x) >>> 6) &&& 0x03) ||| ((opt_byte m pd x <<< 2) &&& 0x4)
      else (m (page + x) >>> (y % 8 - 1)) &&& 0x7 := by
  unfold get_3_bits opt_byte
  simp only [and_seven]

theorem get_3_bits_testBit (m : Mem) (page : Nat) (pu pd : Option Nat) (x y k : Nat)
    (hk : k < 3) :
    (get_3_bits m page pu pd x y).testBit k = window_bit m page pu pd x y k := by
  rw [get_3_bits_eq]
  unfold window_bit
  have c1 : Nat.testBit 1 0 = true ∧ Nat.testBit 1 1 = false ∧ Nat.testBit 1 2 = false := by decide
  have c3 : Nat.testBit 3 0 = true ∧ Nat.testBit 3 1 = true ∧ Nat.testBit 3 2 = false := by decide
  have c4 : Nat.testBit 4 0 = false ∧ Nat.testBit 4 1 = false ∧ Nat.testBit 4 2 = true := by decide
  have c6 : Nat.testBit 6 0 = false ∧ Nat.testBit 6 1 = true ∧ Nat.testBit 6 2 = true := by decide
  have c7 : Nat.testBit 7 0 = true ∧ Nat.testBit 7 1 = true ∧ Nat.testBit 7 2 = true := by decide
  obtain ⟨c10, c11, c12⟩ := c1
  obtain ⟨c30, c31, c32⟩ := c3
  obtain ⟨c40, c41, c42⟩ := c4
  obtain ⟨c60, c61, c62⟩ := c6
  obtain ⟨c70, c71, c72⟩ := c7
  by_cases h0 : y % 8 = 0
  · rw [if_pos h0, if_pos h0]
    interval_cases k <;>
      simp only [Nat.testBit_or, Nat.testBit_and, Nat.testBit_shiftRight, Nat.testBit_shiftLeft,
        c10, c11, c12, c60, c61, c62] <;> simp
  · rw [if_neg h0, if_neg h0]
    by_cases h7 : y % 8 = 7
    · rw [if_pos h7, if_pos h7]
      interval_cases k <;>
        simp only [Nat.testBit_or, Nat.testBit_and, Nat.testBit_shiftRight, Nat.testBit_shiftLeft,
          c30, c31, c32, c40, c41, c42] <;> simp
    · rw [if_neg h7, if_neg h7]
      interval_cases k <;>
        simp only [Nat.testBit_or, Nat.testBit_and, Nat.testBit_shiftRight, c70, c71, c72] <;>
        simp

set_option maxRecDepth 100000 in
theorem apply_rules_table : ∀ l < 8, ∀ m < 8, ∀ r < 8,
    apply_rules l m r
      = life_rule (m.testBit 1) (pop3 l + ((m.testBit 0).toNat + (m.testBit 2).toNat) + pop3 r) := by
  decide

theorem row_step_vars_at (ctx : cgol_s) (y : Nat) (mem : Mem) :
    row_step ctx y (vars_at ctx y mem)
      = vars_at ctx (y + 1)
          (row_loop ctx (vars_at ctx y mem).page (vars_at ctx y mem).page_up
            (vars_at ctx y mem).page_down (vars_at ctx y mem).new_page (vars_at ctx y mem).mask
            y ctx.width mem) := by
  have hlt : y % 8 < 8 := Nat.mod_lt _ (by norm_num)
  by_cases h7 : y % 8 = 7
  · have hd : (y + 1) / 8 = y / 8 + 1 := by omega
    have hm : (y + 1) % 8 = 0 := by omega
    unfold row_step
    simp only [vars_at, h7, hd, hm]
    simp [Nat.add_mul, Nat.add_assoc]
  · have hd : (y + 1) / 8 = y / 8 := by omega
    have hm : (y + 1) % 8 = y % 8 + 1 := by omega
    have hmask : (2 ^ (y % 8) <<< 1) % 256 = 2 ^ (y % 8 + 1) := by
      have : y % 8 < 7 := by omega
      interval_cases (y % 8) <;> rfl
    have hne : (2 : Nat) ^ (y % 8 + 1) ≠ 0 := by positivity
    unfold row_step
    simp only [vars_at, hd, hm, hmask, if_neg hne]

theorem well_formed_pages {ctx : cgol_s} (h : well_formed ctx) :
    ctx.num_pages = (ctx.height + 7) / 8 := by
  obtain ⟨_, _, hn, _⟩ := h
  rw [hn, and_seven, Nat.shiftRight_eq_div_pow]
  split_ifs <;> omega

theorem turn_loop_eq (ctx : cgol_s) (m : Mem) (y : Nat) :
    turn_loop ctx y (turn_init ctx m)
      = vars_at ctx y (mem_rows ctx (memcpy m ctx.temp ctx.state (ctx.num_pages * ctx.width)) y) := by
  induction y with
  | zero => simp [turn_loop, turn_init, vars_at, mem_rows]
  | succ y ih =>
    rw [turn_loop, ih, row_step_vars_at]
    rfl

theorem cgol_take_turn_eq (ctx : cgol_s) (m : Mem) :
    cgol_take_turn ctx m
      = mem_rows ctx (memcpy m ctx.temp ctx.state (ctx.num_pages * ctx.width)) ctx.height := by
  unfold cgol_take_turn
  rw [turn_loop_eq]
  rfl

theorem write_bit_lt (v mask : Nat) (b : Bool) : write_bit v mask b < 256 :=
  Nat.mod_lt _ (by norm_num)

theorem write_bit_testBit (v k j : Nat) (b : Bool) (hj : j < 8) :
    (write_bit v (2 ^ k) b).testBit j = if j = k then b else v.testBit j := by
  unfold write_bit
  have h256 : (256 : Nat) = 2 ^ 8 := by norm_num
  have hF : Nat.testBit 0xFFFFFFFF j = true := by
    have e : (0xFFFFFFFF : Nat) = 2 ^ 32 - 1 := by norm_num
    rw [e, Nat.testBit_two_pow_sub_one]
    exact decide_eq_true (by omega)
  rw [h256, Nat.testBit_mod_two_pow]
  cases b
  · by_cases hjk : j = k
    · subst hjk
      simp [Nat.testBit_and, Nat.testBit_xor, Nat.testBit_two_pow, hF]
    · have : ¬ k = j := fun h => hjk h.symm
      simp [Nat.testBit_and, Nat.testBit_xor, Nat.testBit_two_pow, hF, hj, hjk, this]
  · by_cases hjk : j = k
    · subst hjk
      simp [Nat.testBit_or, Nat.testBit_two_pow, hj]
    · have : ¬ k = j := fun h => hjk h.symm
      simp [Nat.testBit_or, Nat.testBit_two_pow, hj, hjk, this]

theorem get_3_bits_congr (M N : Mem) (lo page : Nat) (pu pd : Option Nat) (x y : Nat)
    (h : ∀ a, lo ≤ a → M a = N a) (hp : lo ≤ page)
    (hu : ∀ p, pu = some p → lo ≤ p) (hd : ∀ p, pd = some p → lo ≤ p) :
    get_3_bits M page pu pd x y = get_3_bits N page pu pd x y := by
  have e1 : M (page + x) = N (page + x) := h _ (by omega)
  have e2 : opt_byte M pu x = opt_byte N pu x := by
    cases pu with
    | none => rfl
    | some p => exact h _ (by have := hu p rfl; omega)
  have e3 : opt_byte M pd x = opt_byte N pd x := by
    cases pd with
    | none => rfl
    | some p => exact h _ (by have := hd p rfl; omega)
  rw [get_3_bits_eq, get_3_bits_eq, e1, e2, e3]

theorem cell_step_eq (ctx : cgol_s) (page : Nat) (pu pd : Option Nat)
    (new_page mask y x : Nat) (M : Mem) :
    cell_step ctx page pu pd new_page mask y x M
      = fun b => if b = new_page + x then
          write_bit (M (new_page + x)) mask (cell_rule ctx M page pu pd y x) else M b := by
  unfold cell_step cell_rule write_bit store
  simp only
  split_ifs <;> rfl

theorem cell_rule_congr (ctx : cgol_s) (M N : Mem) (lo page : Nat) (pu pd : Option Nat)
    (y x : Nat) (h : ∀ a, lo ≤ a → M a = N a) (hp : lo ≤ page)
    (hu : ∀ p, pu = some p → lo ≤ p) (hd : ∀ p, pd = some p → lo ≤ p) :
    cell_rule ctx M page pu pd y x = cell_rule ctx N page pu pd y x := by
  unfold cell_rule
  rw [get_3_bits_congr M N lo page pu pd x y h hp hu hd,
    get_3_bits_congr M N lo page pu pd (x - 1) y h hp hu hd,
    get_3_bits_congr M N lo page pu pd (x + 1) y h hp hu hd]

/-- The column loop writes bit `mask` of the bytes `new_page[0 .. n-1]` with
the rule outcome computed on the snapshot, and nothing else, as long as the
page pointers lie above the bytes it writes. -/
theorem row_loop_spec (ctx : cgol_s) (mc M0 : Mem) (lo page : Nat) (pu pd : Option Nat)
    (new_page mask y : Nat) (hM : ∀ a, lo ≤ a → M0 a = mc a) (hp : lo ≤ page)
    (hu : ∀ p, pu = some p → lo ≤ p) (hd : ∀ p, pd = some p → lo ≤ p)
    (n : Nat) (hn : new_page + n ≤ lo) (a : Nat) :
    row_loop ctx page pu pd new_page mask y n M0 a
      = if new_page ≤ a ∧ a < new_page + n then
          write_bit (M0 a) mask (cell_rule ctx mc page pu pd y (a - new_page))
        else M0 a := by
  induction n generalizing a with
  | zero =>
    have : ¬ (new_page ≤ a ∧ a < new_page + 0) := by omega
    rw [if_neg this]
    rfl
  | succ n ih =>
    have ih2 := fun b => ih (by omega) b
    have hagree : ∀ b, lo ≤ b → row_loop ctx page pu pd new_page mask y n M0 b = mc b := by
      intro b hb
      rw [ih2 b, if_neg (by omega)]
      exact hM b hb
    rw [row_loop, cell_step_eq, cell_rule_congr ctx _ mc lo page pu pd y n hagree hp hu hd]
    simp only
    by_cases hb : a = new_page + n
    · subst hb
      rw [if_pos rfl, if_pos (by omega), ih2, if_neg (by omega)]
      simp
    · rw [if_neg hb, ih2]
      by_cases hr : new_page ≤ a ∧ a < new_page + n
      · rw [if_pos hr, if_pos (by omega)]
      · rw [if_neg hr, if_neg (by omega)]

theorem page_le {p q w x : Nat} (hpq : p < q) (hx : x < w) : p * w + x < q * w := by
  have : (p + 1) * w ≤ q * w := Nat.mul_le_mul_right w hpq
  rw [Nat.add_mul] at this
  omega

theorem page_range_iff {p q w x : Nat} (hx : x < w) :
    (q * w ≤ p * w + x ∧ p * w + x < q * w + w) ↔ p = q := by
  constructor
  · rintro ⟨h1, h2⟩
    rcases Nat.lt_trichotomy p q with h | h | h
    · have := page_le h hx
      omega
    · exact h
    · have : (q + 1) * w ≤ p * w := Nat.mul_le_mul_right w h
      rw [Nat.add_mul] at this
      omega
  · rintro rfl
    omega

theorem row_in_pages {ctx : cgol_s} (h : well_formed ctx) {y : Nat} (hy : y < ctx.height) :
    y / 8 < ctx.num_pages := by
  rw [well_formed_pages h]
  omega

theorem page_rows {ctx : cgol_s} (h : well_formed ctx) {p : Nat} (hp : p < ctx.num_pages) :
    8 * p < ctx.height := by
  rw [well_formed_pages h] at hp
  omega

theorem page_end_le {ctx : cgol_s} (h : well_formed ctx) {q : Nat} (hq : q < ctx.num_pages) :
    ctx.state + q * ctx.width + ctx.width ≤ ctx.temp := by
  obtain ⟨_, _, _, ht⟩ := h
  have h1 : (q + 1) * ctx.width ≤ ctx.num_pages * ctx.width := Nat.mul_le_mul_right _ hq
  rw [Nat.add_mul, Nat.mul_comm ctx.num_pages] at h1
  omega

/-- One iteration of the row loop, on a memory that still holds the snapshot
from `temp` on. -/
theorem mem_rows_succ {ctx : cgol_s} (h : well_formed ctx) (mc : Mem) {y : Nat}
    (hy : y < ctx.height) (hfr : ∀ a, ctx.temp ≤ a → mem_rows ctx mc y a = mc a) (a : Nat) :
    mem_rows ctx mc (y + 1) a
      = if ctx.state + y / 8 * ctx.width ≤ a ∧ a < ctx.state + y / 8 * ctx.width + ctx.width then
          write_bit (mem_rows ctx mc y a) (2 ^ (y % 8))
            (next_bit ctx mc y (a - (ctx.state + y / 8 * ctx.width)))
        else mem_rows ctx mc y a := by
  have hq := row_in_pages h hy
  have hend := page_end_le h hq
  rw [mem_rows]
  unfold next_bit
  apply row_loop_spec ctx mc (mem_rows ctx mc y) ctx.temp _ _ _ _ _ y hfr
  · simp only [vars_at]
    omega
  · intro p hp
    simp only [vars_at] at hp
    split_ifs at hp with h0
    have hw : ctx.width ≤ y / 8 * ctx.width := Nat.le_mul_of_pos_left _ (by omega)
    injection hp with hp
    omega
  · intro p hp
    simp only [vars_at] at hp
    split_ifs at hp with h0 h1
    · injection hp with hp
      omega
    · injection hp with hp
      omega
  · exact hend

theorem mem_rows_frame {ctx : cgol_s} (h : well_formed ctx) (mc : Mem) (y : Nat)
    (hy : y ≤ ctx.height) (a : Nat) (ha : a < ctx.state ∨ ctx.temp ≤ a) :
    mem_rows ctx mc y a = mc a := by
  induction y generalizing a with
  | zero => rfl
  | succ y ih =>
    have hy2 : y < ctx.height := by omega
    have ih2 := fun b hb => ih (by omega) b hb
    have hend := page_end_le h (row_in_pages h hy2)
    rw [mem_rows_succ h mc hy2 (fun b hb => ih2 b (Or.inr hb)), if_neg (by omega)]
    exact ih2 a ha

theorem mem_rows_step {ctx : cgol_s} (h : well_formed ctx) (mc : Mem) {y : Nat}
    (hy : y < ctx.height) {p x : Nat} (hx : x < ctx.width) :
    mem_rows ctx mc (y + 1) (ctx.state + p * ctx.width + x)
      = if p = y / 8 then
          write_bit (mem_rows ctx mc y (ctx.state + p * ctx.width + x)) (2 ^ (y % 8))
            (next_bit ctx mc y x)
        else mem_rows ctx mc y (ctx.state + p * ctx.width + x) := by
  rw [mem_rows_succ h mc hy (fun b hb => mem_rows_frame h mc y (by omega) b (Or.inr hb))]
  have hiff := @page_range_iff p (y / 8) ctx.width x hx
  by_cases hp : p = y / 8
  · subst hp
    rw [if_pos (by omega), if_pos rfl]
    congr 2
    omega
  · rw [if_neg hp, if_neg]
    intro hc
    exact hp (hiff.mp (by omega))

/-- Bit `j` of a state byte when the row loop reaches row `y`: the rule outcome
for the rows already visited, the old bit for the others. -/
theorem mem_rows_bit {ctx : cgol_s} (h : well_formed ctx) (mc : Mem) (y : Nat)
    (hy : y ≤ ctx.height) {p x j : Nat} (hx : x < ctx.width) (hj : j < 8) :
    (mem_rows ctx mc y (ctx.state + p * ctx.width + x)).testBit j
      = if 8 * p + j < y then next_bit ctx mc (8 * p + j) x
        else (mc (ctx.state + p * ctx.width + x)).testBit j := by
  induction y with
  | zero => simp [mem_rows]
  | succ y ih =>
    have hy2 : y < ctx.height := by omega
    have ih2 := ih (by omega)
    rw [mem_rows_step h mc hy2 hx]
    by_cases hp : p = y / 8
    · rw [if_pos hp, write_bit_testBit _ _ _ _ hj, ih2]
      by_cases hjy : j = y % 8
      · have e : 8 * p + j = y := by omega
        rw [if_pos hjy, if_pos (by omega), e]
      · rw [if_neg hjy]
        by_cases hlt : 8 * p + j < y
        · rw [if_pos hlt, if_pos (by omega)]
        · rw [if_neg hlt, if_neg (by omega)]
    · rw [if_neg hp, ih2]
      by_cases hlt : 8 * p + j < y
      · rw [if_pos hlt, if_pos (by omega)]
      · rw [if_neg hlt, if_neg (by omega)]

theorem mem_rows_lt {ctx : cgol_s} (h : well_formed ctx) (mc : Mem) (y : Nat)
    (hy : y ≤ ctx.height) {p x : Nat} (hx : x < ctx.width) (hp : 8 * p < y) :
    mem_rows ctx mc y (ctx.state + p * ctx.width + x) < 256 := by
  induction y with
  | zero => omega
  | succ y ih =>
    have hy2 : y < ctx.height := by omega
    rw [mem_rows_step h mc hy2 hx]
    by_cases hq : p = y / 8
    · rw [if_pos hq]
      exact write_bit_lt _ _ _
    · rw [if_neg hq]
      exact ih (by omega) (by omega)

/-! ## Cells -/

theorem memcpy_dst (m : Mem) (dst src n i : Nat) (hi : i < n) :
    memcpy m dst src n (dst + i) = m (src + i) := by
  unfold memcpy
  rw [if_pos (by omega)]
  congr 1
  omega

theorem memcpy_other (m : Mem) (dst src n a : Nat) (ha : a < dst ∨ dst + n ≤ a) :
    memcpy m dst src n a = m a := by
  unfold memcpy
  rw [if_neg (by omega)]

/-- The snapshot byte of page `q`, column `c`. -/
theorem snapshot_byte {ctx : cgol_s} (_h : well_formed ctx) (m : Mem) {q c : Nat}
    (hq : q < ctx.num_pages) (hc : c < ctx.width) :
    memcpy m ctx.temp ctx.state (ctx.num_pages * ctx.width) (ctx.temp + q * ctx.width + c)
      = m (ctx.state + q * ctx.width + c) := by
  have := page_le hq hc
  rw [Nat.add_assoc, memcpy_dst _ _ _ _ _ this, Nat.add_assoc]

theorem seen_nat (ctx : cgol_s) (m : Mem) (c r : Nat) :
    seen ctx m (c : Int) (r : Int)
      = (decide (c < ctx.width) &&
          (if r / 8 < ctx.num_pages then state_bit ctx m c r
           else if r / 8 = 1 then (m (ctx.temp + ctx.width + c)).testBit (r % 8)
           else false)) := by
  unfold seen
  simp

/-- Bit `k` of the window of an on-board column is the value `seen` gives for
row `y - 1 + k`. -/
theorem window_seen {ctx : cgol_s} (h : well_formed ctx) (m : Mem) {y c k : Nat}
    (hy : y < ctx.height) (hc : c < ctx.width) (_hk : k < 3) :
    window_bit (memcpy m ctx.temp ctx.state (ctx.num_pages * ctx.width))
        (ctx.temp + y / 8 * ctx.width)
        (if y / 8 = 0 then none else some (ctx.temp + y / 8 * ctx.width - ctx.width))
        (if y / 8 = 0 then some (ctx.temp + ctx.width)
         else if ((y / 8 : Nat) : Int) < (ctx.num_pages : Int) - 1 then
           some (ctx.temp + y / 8 * ctx.width + ctx.width)
         else none) c y k
      = seen ctx m (c : Int) ((y : Int) - 1 + (k : Int)) := by
  have hq := row_in_pages h hy
  have hbyte := snapshot_byte h m hq hc
  have hwf := h
  obtain ⟨hw, hh, hn, ht⟩ := h
  unfold window_bit
  by_cases h0 : y % 8 = 0
  · rw [if_pos h0]
    by_cases hk0 : k = 0
    · subst hk0
      rw [if_pos rfl]
      by_cases hy0 : y / 8 = 0
      · have : y = 0 := by omega
        subst this
        simp [opt_byte, seen]
      · rw [if_neg hy0]
        have e : (y : Int) - 1 + ((0 : Nat) : Int) = ((y - 1 : Nat) : Int) := by omega
        have hq1 : y / 8 - 1 < ctx.num_pages := by omega
        have hmul : y / 8 * ctx.width = (y / 8 - 1) * ctx.width + ctx.width := by
          rw [← Nat.succ_mul]
          congr 1
          omega
        have ea : ctx.temp + y / 8 * ctx.width - ctx.width + c
            = ctx.temp + (y / 8 - 1) * ctx.width + c := by omega
        rw [e, seen_nat, opt_byte, ea, snapshot_byte hwf m hq1 hc]
        have e1 : (y - 1) / 8 = y / 8 - 1 := by omega
        have e2 : (y - 1) % 8 = 7 := by omega
        simp [state_bit, e1, e2, hc, hq1]
    · rw [if_neg hk0, hbyte]
      have e : (y : Int) - 1 + (k : Int) = ((y + (k - 1) : Nat) : Int) := by omega
      have e1 : (y + (k - 1)) / 8 = y / 8 := by omega
      have e2 : (y + (k - 1)) % 8 = k - 1 := by omega
      rw [e, seen_nat]
      simp [state_bit, e1, e2, hc, hq]
  · rw [if_neg h0]
    by_cases h7 : y % 8 = 7
    · rw [if_pos h7]
      by_cases hk2 : k = 2
      · subst hk2
        rw [if_pos rfl]
        have e : (y : Int) - 1 + ((2 : Nat) : Int) = ((y + 1 : Nat) : Int) := by omega
        have e1 : (y + 1) / 8 = y / 8 + 1 := by omega
        have e2 : (y + 1) % 8 = 0 := by omega
        rw [e, seen_nat, e1, e2]
        by_cases hy0 : y / 8 = 0
        · rw [if_pos hy0, hy0]
          by_cases hnp : 1 < ctx.num_pages
          · have := snapshot_byte hwf m hnp hc
            rw [Nat.one_mul] at this
            simp only [opt_byte]
            rw [this]
            simp [state_bit, hc, hnp, e1, e2, hy0]
          · have hnp1 : ctx.num_pages = 1 := by omega
            have : memcpy m ctx.temp ctx.state (ctx.num_pages * ctx.width)
                (ctx.temp + ctx.width + c) = m (ctx.temp + ctx.width + c) := by
              apply memcpy_other
              rw [hnp1]
              omega
            simp only [opt_byte]
            rw [this]
            simp [hc, hnp1]
        · rw [if_neg hy0]
          by_cases hlast : ((y / 8 : Nat) : Int) < (ctx.num_pages : Int) - 1
          · rw [if_pos hlast]
            have hq1 : y / 8 + 1 < ctx.num_pages := by omega
            have := snapshot_byte hwf m hq1 hc
            rw [Nat.add_mul, Nat.one_mul, ← Nat.add_assoc] at this
            simp only [opt_byte]
            rw [this]
            simp [state_bit, hc, hq1, e1, e2, Nat.add_mul, Nat.add_assoc]
          · rw [if_neg hlast]
            have hq1 : ¬ y / 8 + 1 < ctx.num_pages := by omega
            have hq2 : ¬ y / 8 + 1 = 1 := by omega
            simp [opt_byte, hq1, hy0]
      · rw [if_neg hk2, hbyte]
        have e : (y : Int) - 1 + (k : Int) = ((y - 1 + k : Nat) : Int) := by omega
        have e1 : (y - 1 + k) / 8 = y / 8 := by omega
        have e2 : (y - 1 + k) % 8 = 6 + k := by omega
        rw [e, seen_nat]
        simp [state_bit, e1, e2, hc, hq]
    · rw [if_neg h7, hbyte]
      have e : (y : Int) - 1 + (k : Int) = ((y - 1 + k : Nat) : Int) := by omega
      have e1 : (y - 1 + k) / 8 = y / 8 := by omega
      have e2 : (y - 1 + k) % 8 = y % 8 - 1 + k := by omega
      rw [e, seen_nat]
      simp [state_bit, e1, e2, hc, hq]

theorem window_testBit {ctx : cgol_s} (h : well_formed ctx) (m : Mem) {y c k : Nat}
    (hy : y < ctx.height) (hc : c < ctx.width) (hk : k < 3) :
    (get_3_bits (memcpy m ctx.temp ctx.state (ctx.num_pages * ctx.width))
        (vars_at ctx y (memcpy m ctx.temp ctx.state (ctx.num_pages * ctx.width))).page
        (vars_at ctx y (memcpy m ctx.temp ctx.state (ctx.num_pages * ctx.width))).page_up
        (vars_at ctx y (memcpy m ctx.temp ctx.state (ctx.num_pages * ctx.width))).page_down
        c y).testBit k
      = seen ctx m (c : Int) ((y : Int) - 1 + (k : Int)) := by
  rw [get_3_bits_testBit _ _ _ _ _ _ _ hk]
  exact window_seen h m hy hc hk

theorem seen_off_left (ctx : cgol_s) (m : Mem) (x y : Int) (hx : x < 0) :
    seen ctx m x y = false := by
  unfold seen
  simp
  intro h
  omega

theorem seen_off_right (ctx : cgol_s) (m : Mem) (x y : Int) (hx : (ctx.width : Int) ≤ x) :
    seen ctx m x y = false := by
  unfold seen
  simp
  intro _ h
  omega

/-- The rule outcome the step computes for an on-board cell is the rule of
Life applied to the values the windows take. -/
theorem next_bit_eq {ctx : cgol_s} (h : well_formed ctx) (m : Mem) {x y : Nat}
    (hx : x < ctx.width) (hy : y < ctx.height) :
    next_bit ctx (memcpy m ctx.temp ctx.state (ctx.num_pages * ctx.width)) y x
      = life_rule (seen ctx m x y) (neighbours (seen ctx m) x y) := by
  unfold next_bit cell_rule
  have hw := fun c (hc : c < ctx.width) k (hk : k < 3) => window_testBit h m hy hc hk
  generalize (vars_at ctx y (memcpy m ctx.temp ctx.state (ctx.num_pages * ctx.width))).page = pg at *
  generalize (vars_at ctx y (memcpy m ctx.temp ctx.state (ctx.num_pages * ctx.width))).page_up = pu at *
  generalize (vars_at ctx y (memcpy m ctx.temp ctx.state (ctx.num_pages * ctx.width))).page_down = pd at *
  generalize memcpy m ctx.temp ctx.state (ctx.num_pages * ctx.width) = mc at *
  have hlt : ∀ c, get_3_bits mc pg pu pd c y < 8 := fun c => get_3_bits_lt mc pg pu pd c y
  have hmod : ∀ v, v < 8 → v % 256 = v := fun v hv => Nat.mod_eq_of_lt (by omega)
  have hL : (if x > 0 then get_3_bits mc pg pu pd (x - 1) y else 0) < 8 := by
    split_ifs
    · exact hlt _
    · norm_num
  have hR : (if (x : Int) < (ctx.width : Int) - 1 then get_3_bits mc pg pu pd (x + 1) y else 0) < 8 := by
    split_ifs
    · exact hlt _
    · norm_num
  rw [hmod _ hL, hmod _ (hlt x), hmod _ hR, apply_rules_table _ hL _ (hlt x) _ hR]
  have r0 : (y : Int) - 1 + ((0 : Nat) : Int) = (y : Int) - 1 := by omega
  have r1 : (y : Int) - 1 + ((1 : Nat) : Int) = (y : Int) := by omega
  have r2 : (y : Int) - 1 + ((2 : Nat) : Int) = (y : Int) + 1 := by omega
  have pL : pop3 (if x > 0 then get_3_bits mc pg pu pd (x - 1) y else 0)
      = (seen ctx m ((x : Int) - 1) ((y : Int) - 1)).toNat + (seen ctx m ((x : Int) - 1) y).toNat
        + (seen ctx m ((x : Int) - 1) ((y : Int) + 1)).toNat := by
    by_cases hx0 : x > 0
    · rw [if_pos hx0]
      have hc : x - 1 < ctx.width := by omega
      have ec : ((x - 1 : Nat) : Int) = (x : Int) - 1 := by omega
      unfold pop3
      rw [hw _ hc 0 (by norm_num), hw _ hc 1 (by norm_num), hw _ hc 2 (by norm_num), ec, r0, r1, r2]
    · rw [if_neg hx0]
      have hneg : (x : Int) - 1 < 0 := by omega
      simp [pop3, seen_off_left _ _ _ _ hneg]
  have pR : pop3 (if (x : Int) < (ctx.width : Int) - 1 then get_3_bits mc pg pu pd (x + 1) y else 0)
      = (seen ctx m ((x : Int) + 1) ((y : Int) - 1)).toNat + (seen ctx m ((x : Int) + 1) y).toNat
        + (seen ctx m ((x : Int) + 1) ((y : Int) + 1)).toNat := by
    by_cases hx1 : (x : Int) < (ctx.width : Int) - 1
    · rw [if_pos hx1]
      have hc : x + 1 < ctx.width := by omega
      have ec : ((x + 1 : Nat) : Int) = (x : Int) + 1 := by omega
      unfold pop3
      rw [hw _ hc 0 (by norm_num), hw _ hc 1 (by norm_num), hw _ hc 2 (by norm_num), ec, r0, r1, r2]
    · rw [if_neg hx1]
      have hbig : (ctx.width : Int) ≤ (x : Int) + 1 := by omega
      simp [pop3, seen_off_right _ _ _ _ hbig]
  rw [pL, pR, hw _ hx 0 (by norm_num), hw _ hx 1 (by norm_num), hw _ hx 2 (by norm_num), r0, r1, r2]
  rfl

/-! ## The generation step, bit by bit -/

/-- Outside of the state buffer the step leaves the memory as the copy of the
snapshot left it. -/
theorem take_turn_frame {ctx : cgol_s} (h : well_formed ctx) (m : Mem) (a : Nat)
    (ha : a < ctx.state ∨ ctx.temp ≤ a) :
    cgol_take_turn ctx m a = memcpy m ctx.temp ctx.state (ctx.num_pages * ctx.width) a := by
  rw [cgol_take_turn_eq]
  exact mem_rows_frame h _ _ (Nat.le_refl _) a ha

/-- Bit `j` of the state byte of page `p`, column `x`, after the step. -/
theorem take_turn_bit {ctx : cgol_s} (h : well_formed ctx) (m : Mem) {p x j : Nat}
    (hp : p < ctx.num_pages) (hx : x < ctx.width) (hj : j < 8) :
    (cgol_take_turn ctx m (ctx.state + p * ctx.width + x)).testBit j
      = if 8 * p + j < ctx.height then
          life_rule (seen ctx m x ((8 * p + j : Nat) : Int))
            (neighbours (seen ctx m) x ((8 * p + j : Nat) : Int))
        else (m (ctx.state + p * ctx.width + x)).testBit j := by
  rw [cgol_take_turn_eq, mem_rows_bit h _ _ (Nat.le_refl _) hx hj]
  have hend := page_end_le h hp
  by_cases hlt : 8 * p + j < ctx.height
  · rw [if_pos hlt, if_pos hlt, next_bit_eq h m hx hlt]
  · rw [if_neg hlt, if_neg hlt, memcpy_other _ _ _ _ _ (Or.inl (by omega))]

/-- Every state byte is a byte after the step. -/
theorem take_turn_lt {ctx : cgol_s} (h : well_formed ctx) (m : Mem) {p x : Nat}
    (hp : p < ctx.num_pages) (hx : x < ctx.width) :
    cgol_take_turn ctx m (ctx.state + p * ctx.width + x) < 256 := by
  rw [cgol_take_turn_eq]
  exact mem_rows_lt h _ _ (Nat.le_refl _) hx (page_rows h hp)

theorem alive_nat (ctx : cgol_s) (m : Mem) (x y : Nat) :
    alive ctx m (x : Int) (y : Int)
      = (decide (x < ctx.width ∧ y < ctx.height) && state_bit ctx m x y) := by
  unfold alive
  simp

theorem stored_nat (ctx : cgol_s) (m : Mem) (x y : Nat) :
    stored ctx m (x : Int) (y : Int)
      = (decide (x < ctx.width ∧ y < 8 * ctx.num_pages) && state_bit ctx m x y) := by
  unfold stored
  have : ((y : Int) < 8 * (ctx.num_pages : Int)) ↔ y < 8 * ctx.num_pages := by omega
  simp [this]

/-- An on-board cell after the step: the rule of Life on the values the
windows take. -/
theorem take_turn_alive {ctx : cgol_s} (h : well_formed ctx) (m : Mem) {x y : Nat}
    (hx : x < ctx.width) (hy : y < ctx.height) :
    alive ctx (cgol_take_turn ctx m) x y
      = life_rule (seen ctx m x y) (neighbours (seen ctx m) x y) := by
  have hp := row_in_pages h hy
  have hj : y % 8 < 8 := Nat.mod_lt _ (by norm_num)
  have e : 8 * (y / 8) + y % 8 = y := by omega
  have := take_turn_bit h m hp hx hj
  rw [e, if_pos hy] at this
  rw [alive_nat, state_bit, this]
  simp [hx, hy]

theorem seen_on_board {ctx : cgol_s} (h : well_formed ctx) (m : Mem) {x y : Nat}
    (hx : x < ctx.width) (hy : y < ctx.height) :
    seen ctx m x y = alive ctx m x y := by
  rw [seen_nat, alive_nat, if_pos (row_in_pages h hy)]
  simp [hx, hy]

/-- Unless the board is a single full page, the windows take the stored bits
up to the row below the last row of the board. -/
theorem seen_eq_stored {ctx : cgol_s} (h : well_formed ctx) (h8 : ctx.height ≠ 8) (m : Mem)
    (x y : Int) (hy : y ≤ ctx.height) : seen ctx m x y = stored ctx m x y := by
  have hnp := well_formed_pages h
  have hh := h.2.1
  unfold seen stored
  by_cases hb : 0 ≤ x ∧ x < ctx.width ∧ 0 ≤ y
  · obtain ⟨hx0, hxw, hy0⟩ := hb
    by_cases hpg : y.toNat / 8 < ctx.num_pages
    · have : y < 8 * (ctx.num_pages : Int) := by omega
      simp [hx0, hxw, hy0, hpg, this]
    · have : ¬ y < 8 * (ctx.num_pages : Int) := by omega
      have h1 : ¬ y.toNat / 8 = 1 := by omega
      simp [hpg, this, h1]
  · have : ¬ (0 ≤ x ∧ x < ctx.width ∧ 0 ≤ y ∧ y < 8 * (ctx.num_pages : Int)) := by
      intro hc
      exact hb ⟨hc.1, hc.2.1, hc.2.2.1⟩
    simp [hb, this]

theorem neighbours_congr (f g : Int → Int → Bool) (x y : Int)
    (h : ∀ c r, r ≤ y + 1 → f c r = g c r) : neighbours f x y = neighbours g x y := by
  unfold neighbours
  rw [h _ _ (by omega), h _ _ (by omega), h _ _ (by omega), h _ _ (by omega), h _ _ (by omega),
    h _ _ (by omega), h _ _ (by omega), h _ _ (by omega)]

/-- The step on a board that is not a single full page: the rule of Life with
the neighbours read as the stored bits. -/
theorem take_turn_stored {ctx : cgol_s} (h : well_formed ctx) (h8 : ctx.height ≠ 8) (m : Mem)
    {x y : Nat} (hx : x < ctx.width) (hy : y < ctx.height) :
    alive ctx (cgol_take_turn ctx m) x y
      = life_rule (alive ctx m x y) (neighbours (stored ctx m) x y) := by
  rw [take_turn_alive h m hx hy, seen_on_board h m hx hy]
  congr 1
  apply neighbours_congr
  intro c r hr
  exact seen_eq_stored h h8 m c r (by omega)

/-! ## Creation -/

theorem pages_ceil (h : Nat) :
    (((h >>> 3) + (if h &&& 0x7 ≠ 0 then 1 else 0) : Nat) : Int) = ⌈((h : Int) : ℚ) / 8⌉ := by
  symm
  rw [Int.ceil_eq_iff, and_seven, Nat.shiftRight_eq_div_pow]
  generalize hz : ((h / 2 ^ 3 + if h % 8 ≠ 0 then 1 else 0 : Nat) : Int) = z
  have hz1 : 8 * z - 8 < (h : Int) := by
    rw [← hz]
    split_ifs <;> omega
  have hz2 : (h : Int) ≤ 8 * z := by
    rw [← hz]
    split_ifs <;> omega
  have q1 : ((8 * z - 8 : Int) : ℚ) < (((h : Int)) : ℚ) := by exact_mod_cast hz1
  have q2 : (((h : Int)) : ℚ) ≤ ((8 * z : Int) : ℚ) := by exact_mod_cast hz2
  push_cast at q1 q2
  rw [Int.cast_natCast]
  constructor
  · rw [lt_div_iff₀ (by norm_num)]
    linarith
  · rw [div_le_iff₀ (by norm_num)]
    linarith

/-- The successful path of `init`, past its three guards. -/
theorem init_past_guards (malloc : Nat → Option Nat) (g : globals) (width height : Int)
    (static_storage : Option Nat) (hw : 0 < width) (hh : 0 < height)
    (hg : g.games_alloced < CGOL_MAX_GAMES) (np : Nat)
    (hnp : np = (height.toNat >>> 3) + (if height.toNat &&& 0x7 ≠ 0 then 1 else 0)) :
    init malloc g width height static_storage
      = match static_storage with
        | none =>
          if 2 * width * (np : Int) > INT_MAX then none
          else
            match malloc (2 * width.toNat * np) with
            | none => some (none, { g with games_alloced := g.games_alloced + 1 })
            | some p =>
              if width * (np : Int) > INT_MAX then none
              else
                some (some g.games_alloced,
                  { games := Function.update g.games g.games_alloced
                      { width := width.toNat
                        height := height.toNat
                        num_pages := np
                        internal_storage := some p
                        state := p
                        temp := p + width.toNat * np }
                    games_alloced := g.games_alloced + 1
                    heap := (p, 2 * width.toNat * np) :: g.heap })
        | some p =>
          if width * (np : Int) > INT_MAX then none
          else
            some (some g.games_alloced,
              { games := Function.update g.games g.games_alloced
                  { width := width.toNat
                    height := height.toNat
                    num_pages := np
                    internal_storage := none
                    state := p
                    temp := p + width.toNat * np }
                games_alloced := g.games_alloced + 1
                heap := g.heap }) := by
  have e : (if height.toNat &&& 0x7 ≠ 0 then height.toNat >>> 3 + 1 else height.toNat >>> 3) = np := by
    rw [hnp]
    split_ifs <;> rfl
  unfold init
  rw [if_neg (by omega), if_neg (by omega), if_neg (by omega)]
  simp only [e]

theorem byte_ext {a b : Nat} (ha : a < 256) (hb : b < 256)
    (h : ∀ j, j < 8 → a.testBit j = b.testBit j) : a = b := by
  apply Nat.eq_of_testBit_eq
  intro i
  by_cases hi : i < 8
  · exact h i hi
  · have h2 : (256 : Nat) ≤ 2 ^ i := by
      calc (256 : Nat) = 2 ^ 8 := by norm_num
        _ ≤ 2 ^ i := Nat.pow_le_pow_right (by norm_num) (by omega)
    rw [Nat.testBit_lt_two_pow (by omega), Nat.testBit_lt_two_pow (by omega)]

theorem neighbours_shift (G : Int → Int → Bool) (a b x y : Int) :
    neighbours (fun c r => G (c - a) (r - b)) x y = neighbours G (x - a) (y - b) := by
  have e1 : x - 1 - a = x - a - 1 := by ring
  have e2 : x + 1 - a = x - a + 1 := by ring
  have e3 : y - 1 - b = y - b - 1 := by ring
  have e4 : y + 1 - b = y - b + 1 := by ring
  unfold neighbours
  simp only [e1, e2, e3, e4]

theorem pair_at_origin_off (d e : Int) (h : d ≠ 0 ∨ (e ≠ 0 ∧ e ≠ 1)) :
    pair_at_origin d e = false := by
  unfold pair_at_origin
  apply decide_eq_false
  omega

set_option maxRecDepth 100000 in
theorem pair_rule_origin (d e : Int) :
    life_rule (pair_at_origin d e) (neighbours pair_at_origin d e) = false := by
  by_cases hin : -1 ≤ d ∧ d ≤ 1 ∧ -1 ≤ e ∧ e ≤ 2
  · obtain ⟨h1, h2, h3, h4⟩ := hin
    interval_cases d <;> interval_cases e <;> decide
  · unfold neighbours
    rw [pair_at_origin_off d e (by omega), pair_at_origin_off _ _ (by omega),
      pair_at_origin_off _ _ (by omega), pair_at_origin_off _ _ (by omega),
      pair_at_origin_off _ _ (by omega), pair_at_origin_off _ _ (by omega),
      pair_at_origin_off _ _ (by omega), pair_at_origin_off _ _ (by omega),
      pair_at_origin_off _ _ (by omega)]
    decide

theorem pair_shift (x0 r0 : Int) :
    (fun c r : Int => decide (c = x0 ∧ (r = r0 ∨ r = r0 + 1)))
      = fun c r => pair_at_origin (c - x0) (r - r0) := by
  funext c r
  unfold pair_at_origin
  apply decide_eq_decide.mpr
  omega

/-- Two vertically adjacent live cells alone, at column `x0` and rows `r0` and
`r0 + 1`: the rule leaves no cell alive. -/
theorem pair_rule (x0 r0 x y : Int) :
    life_rule (decide (x = x0 ∧ (y = r0 ∨ y = r0 + 1)))
      (neighbours (fun c r => decide (c = x0 ∧ (r = r0 ∨ r = r0 + 1))) x y) = false := by
  have key := congrFun (congrFun (pair_shift x0 r0) x) y
  simp only at key
  rw [key, pair_shift, neighbours_shift]
  exact pair_rule_origin _ _

/-- Each cell of the pair has the other one as its only live neighbour. -/
theorem pair_neighbours (x0 r0 : Int) :
    neighbours (fun c r => decide (c = x0 ∧ (r = r0 ∨ r = r0 + 1))) x0 r0 = 1
      ∧ neighbours (fun c r => decide (c = x0 ∧ (r = r0 ∨ r = r0 + 1))) x0 (r0 + 1) = 1 := by
  have e1 : x0 - x0 = 0 := by omega
  have e2 : r0 - r0 = 0 := by omega
  have e3 : r0 + 1 - r0 = 1 := by omega
  rw [pair_shift, neighbours_shift, neighbours_shift, e1, e2, e3]
  decide

/-! ## Termination of the counting loop -/

/-- Once the fuel covers the bits of the argument the counting loop has run to
its end: more fuel gives the same count. For a `uint8_t` 8 iterations are
enough. -/
theorem count_loop_fuel (fuel extra bits n : Nat) (h : bits < 2 ^ fuel) :
    count_loop (fuel + extra) bits n = count_loop fuel bits n := by
  induction fuel generalizing bits n with
  | zero =>
    have hb : bits = 0 := by
      rw [Nat.pow_zero] at h
      omega
    subst hb
    cases extra with
    | zero => rfl
    | succ e =>
      rw [Nat.zero_add]
      simp [count_loop]
  | succ f ih =>
    have e : f + 1 + extra = (f + extra) + 1 := by omega
    rw [e, count_loop, count_loop]
    by_cases hb : bits = 0
    · rw [if_pos hb, if_pos hb]
    · rw [if_neg hb, if_neg hb]
      apply ih
      rw [Nat.shiftRight_eq_div_pow, Nat.pow_one]
      rw [Nat.pow_succ] at h
      omega

/-! ## The addresses the step reads -/

theorem get_3_bits_reads_mem (page : Nat) (pu pd : Option Nat) (c y a : Nat)
    (ha : a ∈ get_3_bits_reads page pu pd c y) :
    a = page + c ∨ (y % 8 = 0 ∧ pu = some (a - c) ∧ c ≤ a) ∨ (y % 8 = 7 ∧ pd = some (a - c) ∧ c ≤ a) := by
  unfold get_3_bits_reads at ha
  simp only [and_seven] at ha
  by_cases h0 : y % 8 = 0
  · rw [if_pos h0] at ha
    cases pu with
    | none =>
      simp only [List.mem_singleton] at ha
      exact Or.inl ha
    | some p =>
      simp only [List.mem_cons, List.mem_singleton, List.not_mem_nil, or_false] at ha
      rcases ha with ha | ha
      · exact Or.inl ha
      · refine Or.inr (Or.inl ⟨h0, ?_, by omega⟩)
        congr 1
        omega
  · rw [if_neg h0] at ha
    by_cases h7 : y % 8 = 7
    · rw [if_pos h7] at ha
      cases pd with
      | none =>
        simp only [List.mem_singleton] at ha
        exact Or.inl ha
      | some p =>
        simp only [List.mem_cons, List.mem_singleton, List.not_mem_nil, or_false] at ha
        rcases ha with ha | ha
        · exact Or.inl ha
        · refine Or.inr (Or.inr ⟨h7, ?_, by omega⟩)
          congr 1
          omega
    · rw [if_neg h7] at ha
      simp only [List.mem_singleton] at ha
      exact Or.inl ha

/-- The addresses the windows of a column `c < width` of row `y` read lie in
the scratch buffer, unless the board is a single full page. -/
theorem window_reads_in_scratch {ctx : cgol_s} (h : well_formed ctx) (h8 : ctx.height ≠ 8)
    (m : Mem) {y c a : Nat} (hy : y < ctx.height) (hc : c < ctx.width)
    (ha : a ∈ get_3_bits_reads (vars_at ctx y m).page (vars_at ctx y m).page_up
      (vars_at ctx y m).page_down c y) :
    ctx.temp ≤ a ∧ a < ctx.temp + ctx.width * ctx.num_pages := by
  have hq := row_in_pages h hy
  have hnp := well_formed_pages h
  have hin : ∀ q, q < ctx.num_pages →
      ctx.temp + q * ctx.width + c < ctx.temp + ctx.width * ctx.num_pages := by
    intro q hq
    have := page_le hq hc
    rw [Nat.mul_comm ctx.width]
    omega
  rcases get_3_bits_reads_mem _ _ _ _ _ _ ha with h1 | ⟨h0, hu, hca⟩ | ⟨h7, hd, hca⟩
  · simp only [vars_at] at h1
    have := hin _ hq
    omega
  · simp only [vars_at] at hu
    split_ifs at hu with hy0
    injection hu with hu
    have hw : y / 8 * ctx.width = (y / 8 - 1) * ctx.width + ctx.width := by
      rw [← Nat.succ_mul]
      congr 1
      omega
    have := hin (y / 8 - 1) (by omega)
    omega
  · simp only [vars_at] at hd
    split_ifs at hd with hy0 hlast
    · injection hd with hd
      have := hin 1 (by omega)
      omega
    · injection hd with hd
      have := hin (y / 8 + 1) (by omega)
      rw [Nat.add_mul] at this
      omega

/-- Unless the board is a single full page (height 8), every byte
`cgol_take_turn` reads through `get_3_bits` lies in the scratch buffer. -/
theorem take_turn_reads_in_scratch {ctx : cgol_s} (h : well_formed ctx) (h8 : ctx.height ≠ 8)
    (m : Mem) (a : Nat) (ha : a ∈ cgol_take_turn_reads ctx m) :
    ctx.temp ≤ a ∧ a < ctx.temp + ctx.width * ctx.num_pages := by
  unfold cgol_take_turn_reads at ha
  rw [List.mem_flatMap] at ha
  obtain ⟨y, hy, ha⟩ := ha
  rw [List.mem_range] at hy
  unfold row_reads at ha
  simp only at ha
  rw [turn_loop_eq, List.mem_flatMap] at ha
  obtain ⟨x, hx, ha⟩ := ha
  rw [List.mem_range] at hx
  unfold cell_reads at ha
  rw [List.mem_append, List.mem_append] at ha
  rcases ha with (ha | ha) | ha
  · split_ifs at ha with hx0
    · exact window_reads_in_scratch h h8 _ hy (by omega) ha
    · simp at ha
  · exact window_reads_in_scratch h h8 _ hy hx ha
  · split_ifs at ha with hx1
    · exact window_reads_in_scratch h h8 _ hy (by omega) ha
    · simp at ha

/-- On every board of height 8 the step reads, for each column, the byte one
page after the scratch page: `page_down` is not `NULL` on the first page. -/
theorem take_turn_reads_past_scratch {ctx : cgol_s} (h : well_formed ctx) (h8 : ctx.height = 8)
    (m : Mem) (x : Nat) (hx : x < ctx.width) :
    ctx.temp + ctx.width * ctx.num_pages + x ∈ cgol_take_turn_reads ctx m := by
  have hnp : ctx.num_pages = 1 := by
    rw [well_formed_pages h, h8]
  unfold cgol_take_turn_reads
  rw [List.mem_flatMap]
  refine ⟨7, by rw [List.mem_range]; omega, ?_⟩
  unfold row_reads
  simp only
  rw [turn_loop_eq, List.mem_flatMap]
  refine ⟨x, by rw [List.mem_range]; exact hx, ?_⟩
  unfold cell_reads
  rw [List.mem_append, List.mem_append]
  refine Or.inl (Or.inr ?_)
  simp [get_3_bits_reads, vars_at, hnp]

/-! ## Patterns -/

theorem state_addr {ctx : cgol_s} (h : well_formed ctx) {i : Nat}
    (hi : i < ctx.width * ctx.num_pages) :
    i / ctx.width < ctx.num_pages ∧ i % ctx.width < ctx.width
      ∧ ctx.state + i = ctx.state + i / ctx.width * ctx.width + i % ctx.width := by
  have hw := h.1
  refine ⟨?_, Nat.mod_lt _ hw, ?_⟩
  · rw [Nat.div_lt_iff_lt_mul hw, Nat.mul_comm]
    exact hi
  · have := Nat.div_add_mod i ctx.width
    rw [Nat.mul_comm] at this
    omega

theorem holds_unique {ctx : cgol_s} (h : well_formed ctx) {m1 m2 : Mem} {P : Int → Int → Bool}
    (h1 : holds ctx m1 P) (h2 : holds ctx m2 P) (i : Nat) (hi : i < ctx.width * ctx.num_pages) :
    m1 (ctx.state + i) = m2 (ctx.state + i) := by
  obtain ⟨hp, hx, e⟩ := state_addr h hi
  rw [e]
  obtain ⟨a1, b1⟩ := h1 _ hp _ hx
  obtain ⟨a2, b2⟩ := h2 _ hp _ hx
  apply byte_ext a1 a2
  intro j hj
  rw [b1 j hj, b2 j hj]

theorem stored_of_holds {ctx : cgol_s} {m : Mem} {P : Int → Int → Bool}
    (hP : holds ctx m P)
    (hoff : ∀ c r : Int,
      ¬ (0 ≤ c ∧ c < ctx.width ∧ 0 ≤ r ∧ r < 8 * (ctx.num_pages : Int)) → P c r = false)
    (c r : Int) : stored ctx m c r = P c r := by
  by_cases hb : 0 ≤ c ∧ c < ctx.width ∧ 0 ≤ r ∧ r < 8 * (ctx.num_pages : Int)
  · obtain ⟨hc0, hcw, hr0, hrn⟩ := hb
    have ec : c = (c.toNat : Int) := (Int.toNat_of_nonneg hc0).symm
    have er : r = (r.toNat : Int) := (Int.toNat_of_nonneg hr0).symm
    have hj : r.toNat % 8 < 8 := Nat.mod_lt _ (by norm_num)
    have e8 : 8 * (r.toNat / 8) + r.toNat % 8 = r.toNat := by omega
    have := (hP (r.toNat / 8) (by omega) c.toNat (by omega)).2 _ hj
    rw [e8] at this
    rw [ec, er, stored_nat, decide_eq_true (by omega), Bool.true_and, state_bit, this]
  · rw [hoff c r hb]
    unfold stored
    rw [decide_eq_false hb, Bool.false_and]

/-- One step on a pattern: if the rule of Life turns `P` into `Q` on the
board, and both are dead off the board, the state holds `Q` after
`cgol_take_turn`, unless the board is a single full page. -/
theorem step_holds {ctx : cgol_s} (h : well_formed ctx) (h8 : ctx.height ≠ 8) {m : Mem}
    {P Q : Int → Int → Bool} (hP : holds ctx m P)
    (hPoff : ∀ c r, ¬ on_board ctx c r → P c r = false)
    (hQoff : ∀ c r, ¬ on_board ctx c r → Q c r = false)
    (hQ : ∀ c r, on_board ctx c r → Q c r = life_rule (P c r) (neighbours P c r)) :
    holds ctx (cgol_take_turn ctx m) Q := by
  have hnp := well_formed_pages h
  have hst : ∀ c r, stored ctx m c r = P c r := by
    apply stored_of_holds hP
    intro c r hb
    apply hPoff
    unfold on_board
    omega
  intro p hp x hx
  refine ⟨take_turn_lt h m hp hx, ?_⟩
  intro j hj
  rw [take_turn_bit h m hp hx hj]
  by_cases hlt : 8 * p + j < ctx.height
  · rw [if_pos hlt, hQ _ _ (by unfold on_board; omega)]
    have hs : ∀ c r, r ≤ ((8 * p + j : Nat) : Int) + 1 → seen ctx m c r = P c r := by
      intro c r hr
      rw [seen_eq_stored h h8 m c r (by omega), hst]
    rw [neighbours_congr (seen ctx m) P _ _ hs, hs _ _ (by omega)]
  · rw [if_neg hlt, (hP p hp x hx).2 j hj, hPoff _ _ (by unfold on_board; omega),
      hQoff _ _ (by unfold on_board; omega)]

/-- With height != 8: an all-zero state buffer is all-zero after
`cgol_take_turn`. -/
theorem zero_board_stays_zero {ctx : cgol_s} (h : well_formed ctx) (h8 : ctx.height ≠ 8)
    (m : Mem) (hz : ∀ i < ctx.width * ctx.num_pages, m (ctx.state + i) = 0) :
    ∀ i < ctx.width * ctx.num_pages, cgol_take_turn ctx m (ctx.state + i) = 0 := by
  have hP : holds ctx m (fun _ _ => false) := by
    intro p hp x hx
    have hi : p * ctx.width + x < ctx.width * ctx.num_pages := by
      rw [Nat.mul_comm ctx.width]
      exact page_le hp hx
    have := hz _ hi
    rw [← Nat.add_assoc] at this
    rw [this]
    exact ⟨by norm_num, fun j _ => Nat.zero_testBit j⟩
  have hQ : holds ctx (cgol_take_turn ctx m) (fun _ _ => false) :=
    step_holds h h8 hP (fun _ _ _ => rfl) (fun _ _ _ => rfl) (fun _ _ _ => rfl)
  intro i hi
  rw [holds_unique h hQ hP i hi]
  exact hz i hi

/-! ## Blinker and block -/

theorem blinker_row_off (d e : Int) (h : d < -1 ∨ 1 < d ∨ e ≠ 0) : blinker_row d e = false := by
  unfold blinker_row
  apply decide_eq_false
  omega

theorem blinker_col_off (d e : Int) (h : e < -1 ∨ 1 < e ∨ d ≠ 0) : blinker_col d e = false := by
  unfold blinker_col
  apply decide_eq_false
  omega

theorem block_2x2_off (d e : Int) (h : d < 0 ∨ 1 < d ∨ e < 0 ∨ 1 < e) : block_2x2 d e = false := by
  unfold block_2x2
  apply decide_eq_false
  omega

set_option maxRecDepth 100000 in
theorem blinker_row_rule (d e : Int) :
    life_rule (blinker_row d e) (neighbours blinker_row d e) = blinker_col d e := by
  by_cases hin : -2 ≤ d ∧ d ≤ 2 ∧ -2 ≤ e ∧ e ≤ 2
  · obtain ⟨h1, h2, h3, h4⟩ := hin
    interval_cases d <;> interval_cases e <;> decide
  · unfold neighbours
    rw [blinker_row_off d e (by omega), blinker_row_off _ _ (by omega),
      blinker_row_off _ _ (by omega), blinker_row_off _ _ (by omega),
      blinker_row_off _ _ (by omega), blinker_row_off _ _ (by omega),
      blinker_row_off _ _ (by omega), blinker_row_off _ _ (by omega),
      blinker_row_off _ _ (by omega), blinker_col_off _ _ (by omega)]
    decide

set_option maxRecDepth 100000 in
theorem blinker_col_rule (d e : Int) :
    life_rule (blinker_col d e) (neighbours blinker_col d e) = blinker_row d e := by
  by_cases hin : -2 ≤ d ∧ d ≤ 2 ∧ -2 ≤ e ∧ e ≤ 2
  · obtain ⟨h1, h2, h3, h4⟩ := hin
    interval_cases d <;> interval_cases e <;> decide
  · unfold neighbours
    rw [blinker_col_off d e (by omega), blinker_col_off _ _ (by omega),
      blinker_col_off _ _ (by omega), blinker_col_off _ _ (by omega),
      blinker_col_off _ _ (by omega), blinker_col_off _ _ (by omega),
      blinker_col_off _ _ (by omega), blinker_col_off _ _ (by omega),
      blinker_col_off _ _ (by omega), blinker_row_off _ _ (by omega)]
    decide

set_option maxRecDepth 100000 in
theorem block_2x2_rule (d e : Int) :
    life_rule (block_2x2 d e) (neighbours block_2x2 d e) = block_2x2 d e := by
  by_cases hin : -1 ≤ d ∧ d ≤ 2 ∧ -1 ≤ e ∧ e ≤ 2
  · obtain ⟨h1, h2, h3, h4⟩ := hin
    interval_cases d <;> interval_cases e <;> decide
  · unfold neighbours
    rw [block_2x2_off d e (by omega), block_2x2_off _ _ (by omega),
      block_2x2_off _ _ (by omega), block_2x2_off _ _ (by omega),
      block_2x2_off _ _ (by omega), block_2x2_off _ _ (by omega),
      block_2x2_off _ _ (by omega), block_2x2_off _ _ (by omega),
      block_2x2_off _ _ (by omega)]
    decide

theorem moved_rule (G G2 : Int → Int → Bool) (a b : Int)
    (h : ∀ d e, life_rule (G d e) (neighbours G d e) = G2 d e) (c r : Int) :
    moved G2 a b c r = life_rule (moved G a b c r) (neighbours (moved G a b) c r) := by
  unfold moved
  rw [neighbours_shift, h]

/-- With height != 8: a horizontal blinker centred at `(x0, y0)`, one cell
away from every border, alone on the board, becomes the vertical blinker after
one `cgol_take_turn` and the original byte buffer after two. -/
theorem blinker_period_two {ctx : cgol_s} (h : well_formed ctx) (h8 : ctx.height ≠ 8) (m : Mem)
    (x0 y0 : Nat) (hx1 : 1 ≤ x0) (hx2 : x0 + 1 < ctx.width) (hy1 : 1 ≤ y0)
    (hy2 : y0 + 1 < ctx.height) (hm : holds ctx m (moved blinker_row x0 y0)) :
    holds ctx (cgol_take_turn ctx m) (moved blinker_col x0 y0)
      ∧ ∀ i < ctx.width * ctx.num_pages,
          cgol_take_turn ctx (cgol_take_turn ctx m) (ctx.state + i) = m (ctx.state + i) := by
  have hrow : ∀ c r, ¬ on_board ctx c r → moved blinker_row x0 y0 c r = false := by
    intro c r hb
    unfold on_board at hb
    exact blinker_row_off _ _ (by omega)
  have hcol : ∀ c r, ¬ on_board ctx c r → moved blinker_col x0 y0 c r = false := by
    intro c r hb
    unfold on_board at hb
    exact blinker_col_off _ _ (by omega)
  have s1 : holds ctx (cgol_take_turn ctx m) (moved blinker_col x0 y0) :=
    step_holds h h8 hm hrow hcol (fun c r _ => moved_rule _ _ _ _ blinker_row_rule c r)
  have s2 : holds ctx (cgol_take_turn ctx (cgol_take_turn ctx m)) (moved blinker_row x0 y0) :=
    step_holds h h8 s1 hcol hrow (fun c r _ => moved_rule _ _ _ _ blinker_col_rule c r)
  exact ⟨s1, fun i hi => holds_unique h s2 hm i hi⟩

/-- With height != 8: a 2x2 block with its top left cell at `(x0, y0)`, alone
on the board, is left as it is by `cgol_take_turn`, byte for byte. -/
theorem block_still {ctx : cgol_s} (h : well_formed ctx) (h8 : ctx.height ≠ 8) (m : Mem)
    (x0 y0 : Nat) (hx : x0 + 1 < ctx.width) (hy : y0 + 1 < ctx.height)
    (hm : holds ctx m (moved block_2x2 x0 y0)) :
    ∀ i < ctx.width * ctx.num_pages, cgol_take_turn ctx m (ctx.state + i) = m (ctx.state + i) := by
  have hoff : ∀ c r, ¬ on_board ctx c r → moved block_2x2 x0 y0 c r = false := by
    intro c r hb
    unfold on_board at hb
    exact block_2x2_off _ _ (by omega)
  have s1 : holds ctx (cgol_take_turn ctx m) (moved block_2x2 x0 y0) :=
    step_holds h h8 hm hoff hoff (fun c r _ => moved_rule _ _ _ _ block_2x2_rule c r)
  exact fun i hi => holds_unique h s1 hm i hi

/-- The blinker on a 5x5 board: the two-step theorem at a concrete input. -/
theorem blinker_period_two_example :
    well_formed (board_at_zero 5 5) ∧ holds (board_at_zero 5 5) (mem_of [0, 4, 4, 4, 0])
        (moved blinker_row (2 : Nat) (2 : Nat))
      ∧ holds (board_at_zero 5 5)
          (cgol_take_turn (board_at_zero 5 5) (mem_of [0, 4, 4, 4, 0]))
          (moved blinker_col (2 : Nat) (2 : Nat)) :=
  ⟨by decide, by decide,
    (blinker_period_two (by decide) (by decide) (mem_of [0, 4, 4, 4, 0]) 2 2 (by decide)
      (by decide) (by decide) (by decide) (by decide)).1⟩

/-- The block on a 4x9 board, across the page boundary: the still-life theorem
at a concrete input. -/
theorem block_still_example :
    well_formed (board_at_zero 4 9)
      ∧ holds (board_at_zero 4 9) (mem_of [0, 0x80, 0x80, 0, 0, 0x01, 0x01, 0])
          (moved block_2x2 (1 : Nat) (7 : Nat))
      ∧ cgol_take_turn (board_at_zero 4 9) (mem_of [0, 0x80, 0x80, 0, 0, 0x01, 0x01, 0])
          ((board_at_zero 4 9).state + 1) = 0x80 :=
  ⟨by decide, by decide,
    block_still (by decide) (by decide) (mem_of [0, 0x80, 0x80, 0, 0, 0x01, 0x01, 0]) 1 7
      (by decide) (by decide) (by decide) 1 (by decide)⟩

/-- C2. For every width > 0 and height > 0, a successful create leaves in the
returned slot `num_pages = ceil(height / 8)`, computed as `height >> 3` plus 1
when `height & 7` is non-zero; `cgol_get_state` returns the start of the
storage (the static storage, or the block `malloc` returned for
`2 * width * num_pages` bytes), and the scratch buffer starts exactly
`width * ceil(height / 8)` bytes after it. The slot is a well-formed board of
the requested dimensions. -/
theorem create_layout (malloc : Nat → Option Nat) (g : globals) (width height : Int)
    (static_storage : Option Nat) (hw : 0 < width) (hh : 0 < height) (i : Nat) (g' : globals)
    (hs : init malloc g width height static_storage = some (some i, g')) :
    ((g'.games i).num_pages : Int) = ⌈(height : ℚ) / 8⌉
      ∧ (g'.games i).num_pages
          = (height.toNat >>> 3) + (if height.toNat &&& 0x7 ≠ 0 then 1 else 0)
      ∧ some (cgol_get_state (g'.games i))
          = (match static_storage with
              | some p => some p
              | none => malloc (2 * width.toNat * (g'.games i).num_pages))
      ∧ ((g'.games i).temp : Int)
          = (cgol_get_state (g'.games i) : Int) + width * ⌈(height : ℚ) / 8⌉
      ∧ ((g'.games i).width : Int) = width ∧ ((g'.games i).height : Int) = height
      ∧ well_formed (g'.games i) := by
  have hceil := pages_ceil height.toNat
  rw [Int.toNat_of_nonneg (by omega)] at hceil
  have hwn : (width.toNat : Int) = width := Int.toNat_of_nonneg (by omega)
  have hhn : (height.toNat : Int) = height := Int.toNat_of_nonneg (by omega)
  generalize hnp : (height.toNat >>> 3) + (if height.toNat &&& 0x7 ≠ 0 then 1 else 0) = np at *
  by_cases hg : g.games_alloced < CGOL_MAX_GAMES
  · rw [init_past_guards malloc g width height static_storage hw hh hg np hnp.symm] at hs
    have fin : ∀ (p : Nat) (ist : Option Nat) (hp : List (Nat × Nat)),
        some (some g.games_alloced,
          ({ games := Function.update g.games g.games_alloced
              { width := width.toNat
                height := height.toNat
                num_pages := np
                internal_storage := ist
                state := p
                temp := p + width.toNat * np }
             games_alloced := g.games_alloced + 1
             heap := hp } : globals)) = some (some i, g') →
        ((g'.games i).num_pages : Int) = ⌈(height : ℚ) / 8⌉
          ∧ (g'.games i).num_pages = np
          ∧ cgol_get_state (g'.games i) = p
          ∧ ((g'.games i).temp : Int)
              = (cgol_get_state (g'.games i) : Int) + width * ⌈(height : ℚ) / 8⌉
          ∧ ((g'.games i).width : Int) = width ∧ ((g'.games i).height : Int) = height
          ∧ well_formed (g'.games i) := by
      intro p ist hp he
      simp only [Option.some.injEq, Prod.mk.injEq] at he
      obtain ⟨hi, hg'⟩ := he
      have hslot : g'.games i =
          { width := width.toNat
            height := height.toNat
            num_pages := np
            internal_storage := ist
            state := p
            temp := p + width.toNat * np } := by
        rw [← hg', ← hi]
        simp
      rw [hslot]
      refine ⟨hceil, rfl, rfl, ?_, hwn, hhn, ?_⟩
      · simp only [cgol_get_state]
        rw [← hceil]
        push_cast
        rw [hwn]
      · refine ⟨?_, ?_, hnp.symm, rfl⟩
        · show 0 < width.toNat
          omega
        · show 0 < height.toNat
          omega
    cases static_storage with
    | some p =>
      simp only at hs
      by_cases hov : width * (np : Int) > INT_MAX
      · rw [if_pos hov] at hs
        exact absurd hs (by simp)
      · rw [if_neg hov] at hs
        obtain ⟨c1, c2, c3, c4, c5, c6, c7⟩ := fin p none _ hs
        exact ⟨c1, c2, by rw [c3], c4, c5, c6, c7⟩
    | none =>
      simp only at hs
      by_cases hov : 2 * width * (np : Int) > INT_MAX
      · rw [if_pos hov] at hs
        exact absurd hs (by simp)
      · rw [if_neg hov] at hs
        cases hmal : malloc (2 * width.toNat * np) with
        | none =>
          rw [hmal] at hs
          simp at hs
        | some p =>
          rw [hmal] at hs
          simp only at hs
          by_cases hov2 : width * (np : Int) > INT_MAX
          · rw [if_pos hov2] at hs
            exact absurd hs (by simp)
          · rw [if_neg hov2] at hs
            obtain ⟨c1, c2, c3, c4, c5, c6, c7⟩ := fin p (some p) _ hs
            refine ⟨c1, c2, ?_, c4, c5, c6, c7⟩
            simp only
            rw [c3, c2, hmal]
  · unfold init at hs
    rw [if_neg (by omega), if_neg (by omega), if_pos (by omega)] at hs
    simp at hs

/-- Witness of C2: `cgol_init(128, 64)` at program start, `malloc` returning
address 100. -/
theorem create_layout_witness :
    (0 : Int) < 128 ∧ (0 : Int) < 64
      ∧ init (fun _ => some 100) globals_at_start 128 64 none
          = some (some 0, globals_after_128x64)
      ∧ ((globals_after_128x64.games 0).num_pages : Int) = ⌈((64 : Int) : ℚ) / 8⌉
      ∧ ((globals_after_128x64.games 0).temp : Int)
          = (cgol_get_state (globals_after_128x64.games 0) : Int)
            + 128 * ⌈((64 : Int) : ℚ) / 8⌉
      ∧ well_formed (globals_after_128x64.games 0) :=
  have h := create_layout (fun _ => some 100) globals_at_start 128 64 none (by decide)
    (by decide) 0 globals_after_128x64 rfl
  ⟨by decide, by decide, rfl, h.1, h.2.2.2.1, h.2.2.2.2.2.2⟩

/-- C3. For every width <= 0 or height <= 0, `cgol_init` and
`cgol_init_static` return the NULL handle and leave the globals as they were:
no block allocated, no slot of the table consumed. Hence a create that
follows behaves as if the failed one had not been called, and with valid
dimensions, static storage and a free slot it succeeds. -/
theorem create_rejects_bad_dimensions (malloc : Nat → Option Nat) (g : globals)
    (width height : Int) (static_storage : Option Nat) (hbad : width ≤ 0 ∨ height ≤ 0) :
    cgol_init malloc g width height = some (none, g)
      ∧ cgol_init_static malloc g width height static_storage = some (none, g)
      ∧ (∀ (w2 h2 : Int) (s2 : Option Nat),
          (cgol_init malloc g width height).bind (fun r => init malloc r.2 w2 h2 s2)
            = init malloc g w2 h2 s2
          ∧ (cgol_init_static malloc g width height static_storage).bind
              (fun r => init malloc r.2 w2 h2 s2) = init malloc g w2 h2 s2)
      ∧ (∀ (w2 h2 : Int) (p : Nat), 0 < w2 → 0 < h2 →
          w2 * (((h2.toNat + 7) / 8 : Nat) : Int) ≤ INT_MAX →
          g.games_alloced < CGOL_MAX_GAMES →
          ∃ g2, (cgol_init_static malloc g width height static_storage).bind
              (fun r => cgol_init_static malloc r.2 w2 h2 (some p))
            = some (some g.games_alloced, g2)) := by
  have h1 : ∀ s, init malloc g width height s = some (none, g) := by
    intro s
    unfold init
    rcases hbad with hb | hb
    · rw [if_pos hb]
    · by_cases hw : width ≤ 0
      · rw [if_pos hw]
      · rw [if_neg hw, if_pos hb]
  have h2 : cgol_init_static malloc g width height static_storage = some (none, g) := by
    unfold cgol_init_static
    cases static_storage with
    | none => rfl
    | some p => exact h1 _
  refine ⟨h1 none, h2, ?_, ?_⟩
  · intro w2 h2' s2
    rw [h2]
    unfold cgol_init
    rw [h1 none]
    exact ⟨rfl, rfl⟩
  · intro w2 h2' p hw2 hh2 hov hg
    rw [h2]
    simp only [Option.bind, cgol_init_static]
    rw [init_past_guards malloc g w2 h2' (some p) hw2 hh2 hg _ rfl]
    have e : (h2'.toNat >>> 3) + (if h2'.toNat &&& 0x7 ≠ 0 then 1 else 0) = (h2'.toNat + 7) / 8 := by
      rw [and_seven, Nat.shiftRight_eq_div_pow]
      split_ifs <;> omega
    simp only
    rw [e, if_neg (by omega)]
    exact ⟨_, rfl⟩

/-- Witness of C3: `cgol_init(0, 5)` at program start. -/
theorem create_rejects_bad_dimensions_witness :
    ((0 : Int) ≤ 0 ∨ (5 : Int) ≤ 0)
      ∧ cgol_init (fun _ => some 100) globals_at_start 0 5 = some (none, globals_at_start) :=
  ⟨by decide,
    (create_rejects_bad_dimensions (fun _ => some 100) globals_at_start 0 5 none (by decide)).1⟩

theorem pair_state_bit {ctx : cgol_s} (hwf : well_formed ctx) (h16 : ctx.height = 16) (m : Mem)
    (x0 : Nat) (hx0 : x0 < ctx.width)
    (hm : ∀ i, i < ctx.width * ctx.num_pages →
      m (ctx.state + i) = if i = x0 then 0x80 else if i = ctx.width + x0 then 0x01 else 0)
    (c r : Nat) (hc : c < ctx.width) (hr : r < 16) :
    state_bit ctx m c r = decide (c = x0 ∧ (r = 7 ∨ r = 8)) := by
  have hnp : ctx.num_pages = 2 := by
    rw [well_formed_pages hwf, h16]
  have h128 : ∀ j, Nat.testBit 0x80 j = decide (7 = j) := fun j =>
    Nat.testBit_two_pow (n := 7) (m := j)
  have h1 : ∀ j, Nat.testBit 0x01 j = decide (0 = j) := fun j =>
    Nat.testBit_two_pow (n := 0) (m := j)
  unfold state_bit
  by_cases hp : r / 8 = 0
  · have hi : c < ctx.width * ctx.num_pages := by
      rw [hnp]
      omega
    rw [hp, Nat.zero_mul, Nat.add_zero, hm c hi]
    by_cases hcx : c = x0
    · rw [if_pos hcx, h128]
      apply decide_eq_decide.mpr
      omega
    · rw [if_neg hcx, if_neg (by omega), Nat.zero_testBit]
      symm
      apply decide_eq_false
      omega
  · have hp1 : r / 8 = 1 := by omega
    have hi : ctx.width + c < ctx.width * ctx.num_pages := by
      rw [hnp]
      omega
    rw [hp1, Nat.one_mul, Nat.add_assoc, hm _ hi, if_neg (by omega)]
    by_cases hcx : c = x0
    · rw [if_pos (by omega), h1]
      apply decide_eq_decide.mpr
      omega
    · rw [if_neg (by omega), Nat.zero_testBit]
      symm
      apply decide_eq_false
      omega

/-- C7. Page-boundary correctness: on a board of height 16 (2 pages) and any
width > 0, if the only set bits of the state are bit 7 of page 0 and bit 0 of
page 1 of one column `x0` (rows 7 and 8), then after one `cgol_take_turn`
every state byte is zero; each of the two cells has exactly one live
neighbour before the step. -/
theorem page_boundary_pair_dies (ctx : cgol_s) (hwf : well_formed ctx) (h16 : ctx.height = 16)
    (m : Mem) (x0 : Nat) (hx0 : x0 < ctx.width)
    (hm : ∀ i, i < ctx.width * ctx.num_pages →
      m (ctx.state + i) = if i = x0 then 0x80 else if i = ctx.width + x0 then 0x01 else 0) :
    (∀ i, i < ctx.width * ctx.num_pages → cgol_take_turn ctx m (ctx.state + i) = 0)
      ∧ neighbours (alive ctx m) x0 7 = 1 ∧ neighbours (alive ctx m) x0 8 = 1 := by
  have hnp : ctx.num_pages = 2 := by
    rw [well_formed_pages hwf, h16]
  have hbit := pair_state_bit hwf h16 m x0 hx0 hm
  have hseen : seen ctx m = fun c r => decide (c = (x0 : Int) ∧ (r = 7 ∨ r = 7 + 1)) := by
    funext c r
    by_cases hb : 0 ≤ c ∧ c < ctx.width ∧ 0 ≤ r ∧ r < 16
    · obtain ⟨hc0, hcw, hr0, hr16⟩ := hb
      have ec : c = (c.toNat : Int) := (Int.toNat_of_nonneg hc0).symm
      have er : r = (r.toNat : Int) := (Int.toNat_of_nonneg hr0).symm
      rw [ec, er, seen_nat, if_pos (by omega), hbit _ _ (by omega) (by omega)]
      rw [decide_eq_true (show c.toNat < ctx.width by omega), Bool.true_and]
      apply decide_eq_decide.mpr
      omega
    · have : seen ctx m c r = false := by
        unfold seen
        by_cases hon : 0 ≤ c ∧ c < ctx.width ∧ 0 ≤ r
        · have h1 : ¬ r.toNat / 8 < ctx.num_pages := by omega
          have h2 : ¬ r.toNat / 8 = 1 := by omega
          rw [if_neg h1, if_neg h2, Bool.and_false]
        · rw [decide_eq_false hon, Bool.false_and]
      rw [this]
      symm
      apply decide_eq_false
      omega
  have halive : alive ctx m = fun c r => decide (c = (x0 : Int) ∧ (r = 7 ∨ r = 7 + 1)) := by
    funext c r
    by_cases hb : 0 ≤ c ∧ c < ctx.width ∧ 0 ≤ r ∧ r < 16
    · obtain ⟨hc0, hcw, hr0, hr16⟩ := hb
      have ec : c = (c.toNat : Int) := (Int.toNat_of_nonneg hc0).symm
      have er : r = (r.toNat : Int) := (Int.toNat_of_nonneg hr0).symm
      rw [ec, er, alive_nat, hbit _ _ (by omega) (by omega)]
      rw [decide_eq_true (show c.toNat < ctx.width ∧ r.toNat < ctx.height by omega), Bool.true_and]
      apply decide_eq_decide.mpr
      omega
    · have : alive ctx m c r = false := by
        unfold alive
        rw [decide_eq_false (by rw [h16]; exact hb), Bool.false_and]
      rw [this]
      symm
      apply decide_eq_false
      omega
  refine ⟨?_, ?_, ?_⟩
  · intro i hi
    have hw := hwf.1
    have hp : i / ctx.width < ctx.num_pages := by
      rw [Nat.div_lt_iff_lt_mul hw, Nat.mul_comm]
      exact hi
    have hx : i % ctx.width < ctx.width := Nat.mod_lt _ hw
    have ei : i = i / ctx.width * ctx.width + i % ctx.width := by
      rw [Nat.mul_comm]
      exact (Nat.div_add_mod i ctx.width).symm
    rw [ei, ← Nat.add_assoc]
    apply byte_ext (take_turn_lt hwf m hp hx) (by norm_num)
    intro j hj
    rw [take_turn_bit hwf m hp hx hj, if_pos (by omega), Nat.zero_testBit, hseen]
    exact pair_rule _ _ _ _
  · rw [halive]
    exact (pair_neighbours x0 7).1
  · rw [halive]
    exact (pair_neighbours x0 7).2

/-- Witness of C7 on the 2x16 board, the pair in column 1. -/
theorem page_boundary_pair_dies_witness :
    well_formed (board_at_zero 2 16) ∧ (board_at_zero 2 16).height = 16
      ∧ cgol_take_turn (board_at_zero 2 16) (mem_of [0, 0x80, 0, 0x01])
          ((board_at_zero 2 16).state + 1) = 0 :=
  ⟨by decide, by decide,
    (page_boundary_pair_dies (board_at_zero 2 16) (by decide) (by decide)
      (mem_of [0, 0x80, 0, 0x01]) 1 (by decide) (by decide)).1 1 (by decide)⟩

/-! ## The step and the rule of Life -/

/-- C1, evaluated on the 1x2 board whose state byte is `0b111` (rows 0 and 1
alive, the unused bit of row 2 set): cell `(0, 1)` has one live neighbour on
the board, so the rule of Life with off-board cells dead kills it, yet it is
alive after `cgol_take_turn`. The window of row 1 takes the bit stored for row
2, which is not a row of the board, as a live neighbour. -/
theorem take_turn_counts_unused_row :
    well_formed (board_at_zero 1 2)
      ∧ alive (board_at_zero 1 2) (mem_of [7]) 0 1 = true
      ∧ neighbours (alive (board_at_zero 1 2) (mem_of [7])) 0 1 = 1
      ∧ life_rule (alive (board_at_zero 1 2) (mem_of [7]) 0 1)
          (neighbours (alive (board_at_zero 1 2) (mem_of [7])) 0 1) = false
      ∧ alive (board_at_zero 1 2) (cgol_take_turn (board_at_zero 1 2) (mem_of [7])) 0 1 = true := by
  decide

/-- How far the step reads into the unused rows of a partly used last page:
for every width, height > 0 with height not a multiple of 8 and any two
memories whose state buffers agree on every cell with row <= height, the
states after one `cgol_take_turn` agree on every cell with row < height. The
bits of the rows above row `height` have no effect; those of row `height`
have one, shown below. -/
theorem take_turn_reads_at_most_row_height (ctx : cgol_s) (hwf : well_formed ctx)
    (hpart : ctx.height % 8 ≠ 0) (m1 m2 : Mem)
    (hagree : ∀ x < ctx.width, ∀ y ≤ ctx.height,
      stored ctx m1 (x : Nat) (y : Nat) = stored ctx m2 (x : Nat) (y : Nat)) :
    ∀ x < ctx.width, ∀ y < ctx.height,
      alive ctx (cgol_take_turn ctx m1) (x : Nat) (y : Nat)
        = alive ctx (cgol_take_turn ctx m2) (x : Nat) (y : Nat) := by
  intro x hx y hy
  have h8 : ctx.height ≠ 8 := by omega
  have hnp := well_formed_pages hwf
  rw [take_turn_stored hwf h8 m1 hx hy, take_turn_stored hwf h8 m2 hx hy]
  have hcell : alive ctx m1 x y = alive ctx m2 x y := by
    have := hagree x hx y (by omega)
    rw [stored_nat, stored_nat] at this
    rw [alive_nat, alive_nat]
    have h1 : decide (x < ctx.width ∧ y < 8 * ctx.num_pages) = true := decide_eq_true (by omega)
    have h2 : decide (x < ctx.width ∧ y < ctx.height) = true := decide_eq_true (by omega)
    rw [h1, Bool.true_and, Bool.true_and] at this
    rw [h2, Bool.true_and, Bool.true_and, this]
  rw [hcell]
  congr 1
  apply neighbours_congr
  intro c r hr
  by_cases hb : 0 ≤ c ∧ c < ctx.width ∧ 0 ≤ r
  · obtain ⟨hc0, hcw, hr0⟩ := hb
    have ec : c = (c.toNat : Int) := (Int.toNat_of_nonneg hc0).symm
    have er : r = (r.toNat : Int) := (Int.toNat_of_nonneg hr0).symm
    rw [ec, er]
    exact hagree c.toNat (by omega) r.toNat (by omega)
  · have hoff : ∀ m, stored ctx m c r = false := by
      intro m
      unfold stored
      rw [decide_eq_false (fun hc => hb ⟨hc.1, hc.2.1, hc.2.2.1⟩), Bool.false_and]
    rw [hoff, hoff]

/-- The theorem above on a 3x1 board: two states that differ in the unused
row 2 only. -/
theorem take_turn_reads_at_most_row_height_witness :
    well_formed (board_at_zero 3 1) ∧ (board_at_zero 3 1).height % 8 ≠ 0
      ∧ alive (board_at_zero 3 1) (cgol_take_turn (board_at_zero 3 1) (mem_of [4, 4, 4])) (1 : Nat) (0 : Nat)
        = alive (board_at_zero 3 1) (cgol_take_turn (board_at_zero 3 1) (mem_of [0, 0, 0])) (1 : Nat) (0 : Nat) :=
  ⟨by decide, by decide,
    take_turn_reads_at_most_row_height (board_at_zero 3 1) (by decide) (by decide)
      (mem_of [4, 4, 4]) (mem_of [0, 0, 0]) (by decide) 1 (by decide) 0 (by decide)⟩

/-- C4, evaluated on the 3x1 board: the state `[2, 2, 2]` (row 0 dead, the
unused bit of row 1 set in each column) and the all-zero state agree on every
cell of the board, but after one `cgol_take_turn` cell `(1, 0)` is alive from
the first and dead from the second. The step reads the unused bits of row 1. -/
theorem take_turn_reads_unused_row :
    well_formed (board_at_zero 3 1) ∧ (board_at_zero 3 1).height % 8 ≠ 0
      ∧ (∀ x < 3, ∀ y < 1,
          alive (board_at_zero 3 1) (mem_of [2, 2, 2]) (x : Nat) (y : Nat)
            = alive (board_at_zero 3 1) (mem_of [0, 0, 0]) (x : Nat) (y : Nat))
      ∧ alive (board_at_zero 3 1) (cgol_take_turn (board_at_zero 3 1) (mem_of [2, 2, 2])) 1 0 = true
      ∧ alive (board_at_zero 3 1) (cgol_take_turn (board_at_zero 3 1) (mem_of [0, 0, 0])) 1 0
          = false := by
  decide

/-! ## A board of a single full page -/

/-- C5, evaluated on the 1x8 board (state at address 0, scratch at address 1,
storage of 2 bytes): the step reads address 2, the byte after the scratch
buffer, and its outcome depends on it. With rows 6 and 7 alive, cell `(0, 7)`
survives when bit 0 of that byte is set and dies when it is clear. -/
theorem single_page_reads_past_scratch :
    well_formed (board_at_zero 1 8)
      ∧ (board_at_zero 1 8).temp + (board_at_zero 1 8).width * (board_at_zero 1 8).num_pages = 2
      ∧ 2 ∈ cgol_take_turn_reads (board_at_zero 1 8) (mem_of [0xC0, 0, 1])
      ∧ state_bytes (board_at_zero 1 8)
          (cgol_take_turn (board_at_zero 1 8) (mem_of [0xC0, 0, 1])) = [0x80]
      ∧ state_bytes (board_at_zero 1 8)
          (cgol_take_turn (board_at_zero 1 8) (mem_of [0xC0, 0, 0])) = [0x00] := by
  decide

set_option maxRecDepth 100000 in
/-- C6, evaluated on the 8x8 board with the state of the scenario (column 3 =
`0b00000111`, all else zero): when the 8 bytes that follow the 16 bytes of
storage have bit 0 set, the step yields `[0x00, 0x80, 0x82, 0x82, 0x82, 0x80,
0x80, 0x00]`; it yields the bytes of the scenario when those bytes are zero. -/
theorem single_page_scenario :
    state_bytes (board_at_zero 8 8)
        (cgol_take_turn (board_at_zero 8 8)
          (mem_of [0, 0, 0, 7, 0, 0, 0, 0, 0, 0, 0, 0, 0, 0, 0, 0, 1, 1, 1, 1, 1, 1, 1, 1]))
        = [0x00, 0x80, 0x82, 0x82, 0x82, 0x80, 0x80, 0x00]
      ∧ state_bytes (board_at_zero 8 8)
        (cgol_take_turn (board_at_zero 8 8)
          (mem_of [0, 0, 0, 7, 0, 0, 0, 0, 0, 0, 0, 0, 0, 0, 0, 0, 0, 0, 0, 0, 0, 0, 0, 0]))
        = [0x00, 0x00, 0x02, 0x02, 0x02, 0x00, 0x00, 0x00] := by
  decide

set_option maxRecDepth 100000 in
/-- C8, evaluated on the 3x8 board with the blinker `(0,1), (1,1), (2,1)`
(state `[2, 2, 2]`) when the 3 bytes that follow the 6 bytes of storage have
bit 0 set: after one step the state is `[0x00, 0x87, 0x00]`, cell `(1, 7)`
being alive next to the vertical blinker, and after two steps it is `[0x82,
0x82, 0x82]`, not the original buffer. -/
theorem blinker_single_page :
    state_bytes (board_at_zero 3 8)
        (cgol_take_turn (board_at_zero 3 8) (mem_of [2, 2, 2, 0, 0, 0, 1, 1, 1]))
        = [0x00, 0x87, 0x00]
      ∧ state_bytes (board_at_zero 3 8)
        (cgol_take_turn (board_at_zero 3 8)
          (cgol_take_turn (board_at_zero 3 8) (mem_of [2, 2, 2, 0, 0, 0, 1, 1, 1])))
        = [0x82, 0x82, 0x82] := by
  decide

set_option maxRecDepth 100000 in
/-- C9, evaluated on the 3x8 board with the 2x2 block at columns 0 to 1 and
rows 0 to 1 (state `[3, 3, 0]`) when the 3 bytes that follow the 6 bytes of
storage have bit 0 set: the step yields `[0x03, 0x83, 0x00]`, not the
identical buffer. -/
theorem block_single_page :
    state_bytes (board_at_zero 3 8)
        (cgol_take_turn (board_at_zero 3 8) (mem_of [3, 3, 0, 0, 0, 0, 1, 1, 1]))
        = [0x03, 0x83, 0x00] := by
  decide

set_option maxRecDepth 100000 in
/-- C10, evaluated on the 3x8 board whose state bytes are all zero when the 3
bytes that follow the 6 bytes of storage have bit 0 set: the step yields
`[0x00, 0x80, 0x00]`, cell `(1, 7)` is born. -/
theorem zero_board_single_page :
    state_bytes (board_at_zero 3 8) (mem_of [0, 0, 0, 0, 0, 0, 1, 1, 1]) = [0, 0, 0]
      ∧ state_bytes (board_at_zero 3 8)
        (cgol_take_turn (board_at_zero 3 8) (mem_of [0, 0, 0, 0, 0, 0, 1, 1, 1]))
        = [0x00, 0x80, 0x00] := by
  decide

/-! ## The step on the well-formed domain, unused bits, windows -/

/-- C18. On the well-formed domain the step is exactly one generation of Life:
for every board with width > 0, height > 0 and height != 8 whose stored bits
for rows >= height are all zero (no condition when height is a multiple of 8),
each on-board cell after `cgol_take_turn` is the rule of Life applied to the
pre-step cells, off-board cells being dead. -/
theorem take_turn_reference_generation (ctx : cgol_s) (hwf : well_formed ctx)
    (h8 : ctx.height ≠ 8) (m : Mem)
    (hz : ∀ x < ctx.width, ∀ y < 8 * ctx.num_pages, ctx.height ≤ y → state_bit ctx m x y = false) :
    ∀ x < ctx.width, ∀ y < ctx.height,
      alive ctx (cgol_take_turn ctx m) (x : Nat) (y : Nat)
        = life_rule (alive ctx m (x : Nat) (y : Nat)) (neighbours (alive ctx m) (x : Nat) (y : Nat)) := by
  intro x hx y hy
  rw [take_turn_stored hwf h8 m hx hy]
  congr 1
  apply neighbours_congr
  intro c r _
  by_cases hb : 0 ≤ c ∧ c < ctx.width ∧ 0 ≤ r ∧ r < 8 * (ctx.num_pages : Int)
  · obtain ⟨hc0, hcw, hr0, hrn⟩ := hb
    have ec : c = (c.toNat : Int) := (Int.toNat_of_nonneg hc0).symm
    have er : r = (r.toNat : Int) := (Int.toNat_of_nonneg hr0).symm
    rw [ec, er, stored_nat, alive_nat]
    by_cases hr : r.toNat < ctx.height
    · rw [decide_eq_true (show c.toNat < ctx.width ∧ r.toNat < 8 * ctx.num_pages by omega),
        decide_eq_true (show c.toNat < ctx.width ∧ r.toNat < ctx.height by omega)]
    · rw [hz c.toNat (by omega) r.toNat (by omega) (by omega), Bool.and_false, Bool.and_false]
  · have h1 : stored ctx m c r = false := by
      unfold stored
      rw [decide_eq_false hb, Bool.false_and]
    have hnp := well_formed_pages hwf
    have h2 : alive ctx m c r = false := by
      unfold alive
      rw [decide_eq_false (by omega), Bool.false_and]
    rw [h1, h2]

/-- Witness of C18 on the 3x3 board with the middle row alive. -/
theorem take_turn_reference_generation_witness :
    well_formed (board_at_zero 3 3) ∧ (board_at_zero 3 3).height ≠ 8
      ∧ alive (board_at_zero 3 3) (cgol_take_turn (board_at_zero 3 3) (mem_of [2, 2, 2]))
          (1 : Nat) (0 : Nat)
        = life_rule (alive (board_at_zero 3 3) (mem_of [2, 2, 2]) (1 : Nat) (0 : Nat))
            (neighbours (alive (board_at_zero 3 3) (mem_of [2, 2, 2])) (1 : Nat) (0 : Nat)) :=
  ⟨by decide, by decide,
    take_turn_reference_generation (board_at_zero 3 3) (by decide) (by decide)
      (mem_of [2, 2, 2]) (by decide) 1 (by decide) 0 (by decide)⟩

/-- C19. The unused high bits of the last page are never written by a step:
for every board (those with height not a multiple of 8 are the ones that have
such bits) and every memory content, each bit of a state byte that belongs to a row >= height has the same value
after `cgol_take_turn` as before. Each cell write changes its own bit of its
byte only: after the body of the column loop with mask `2 ^ k`, every other
bit `j < 8` of the written byte and every other address are as before. -/
theorem take_turn_keeps_unused_bits (ctx : cgol_s) (hwf : well_formed ctx) (m : Mem) :
    (∀ p < ctx.num_pages, ∀ x < ctx.width, ∀ j < 8, ctx.height ≤ 8 * p + j →
        (cgol_take_turn ctx m (ctx.state + p * ctx.width + x)).testBit j
          = (m (ctx.state + p * ctx.width + x)).testBit j)
      ∧ (∀ (page : Nat) (page_up page_down : Option Nat) (new_page k y x : Nat) (M : Mem),
          (∀ j < 8, j ≠ k →
            (cell_step ctx page page_up page_down new_page (2 ^ k) y x M (new_page + x)).testBit j
              = (M (new_page + x)).testBit j)
          ∧ ∀ a, a ≠ new_page + x →
              cell_step ctx page page_up page_down new_page (2 ^ k) y x M a = M a) := by
  constructor
  · intro p hp x hx j hj hrow
    rw [take_turn_bit hwf m hp hx hj, if_neg (by omega)]
  · intro page pu pd new_page k y x M
    rw [cell_step_eq]
    constructor
    · intro j hj hjk
      beta_reduce
      rw [if_pos rfl, write_bit_testBit _ _ _ _ hj, if_neg hjk]
    · intro a ha
      beta_reduce
      rw [if_neg ha]

/-- Witness of C19 on the 1x2 board with state byte `0b111`: bit 2, of the
unused row 2, is still set after the step. -/
theorem take_turn_keeps_unused_bits_witness :
    well_formed (board_at_zero 1 2) ∧ (board_at_zero 1 2).height % 8 ≠ 0
      ∧ (cgol_take_turn (board_at_zero 1 2) (mem_of [7])
            ((board_at_zero 1 2).state + 0 * (board_at_zero 1 2).width + 0)).testBit 2
          = ((mem_of [7]) ((board_at_zero 1 2).state + 0 * (board_at_zero 1 2).width + 0)).testBit 2 :=
  ⟨by decide, by decide,
    (take_turn_keeps_unused_bits (board_at_zero 1 2) (by decide) (mem_of [7])).1
      0 (by decide) 0 (by decide) 2 (by decide) (by decide)⟩

/-- C20. For every page byte, every optional adjacent page byte and every row
`y`, `get_3_bits` returns a value in `[0, 7]`. For `y mod 8` in `1..6` its bits
0, 1, 2 are the bits `y mod 8 - 1`, `y mod 8`, `y mod 8 + 1` of the page byte
(rows `y - 1`, `y`, `y + 1`). For `y mod 8 = 0` bit 0 is bit 7 of the byte of
the page above (0 when `page_up` is `NULL`) and bits 1, 2 are bits 0, 1 of the
page byte. For `y mod 8 = 7` bits 0, 1 are bits 6, 7 of the page byte and bit
2 is bit 0 of the byte of the page below (0 when `page_down` is `NULL`). -/
theorem get_3_bits_window (m : Mem) (page : Nat) (page_up page_down : Option Nat) (x y : Nat) :
    get_3_bits m page page_up page_down x y ≤ 7
      ∧ (1 ≤ y % 8 ∧ y % 8 ≤ 6 →
          (get_3_bits m page page_up page_down x y).testBit 0 = (m (page + x)).testBit (y % 8 - 1)
          ∧ (get_3_bits m page page_up page_down x y).testBit 1 = (m (page + x)).testBit (y % 8)
          ∧ (get_3_bits m page page_up page_down x y).testBit 2
              = (m (page + x)).testBit (y % 8 + 1))
      ∧ (y % 8 = 0 →
          (get_3_bits m page page_up page_down x y).testBit 0
              = (match page_up with
                 | some p => (m (p + x)).testBit 7
                 | none => false)
          ∧ (get_3_bits m page page_up page_down x y).testBit 1 = (m (page + x)).testBit 0
          ∧ (get_3_bits m page page_up page_down x y).testBit 2 = (m (page + x)).testBit 1)
      ∧ (y % 8 = 7 →
          (get_3_bits m page page_up page_down x y).testBit 0 = (m (page + x)).testBit 6
          ∧ (get_3_bits m page page_up page_down x y).testBit 1 = (m (page + x)).testBit 7
          ∧ (get_3_bits m page page_up page_down x y).testBit 2
              = (match page_down with
                 | some p => (m (p + x)).testBit 0
                 | none => false)) := by
  have hlt := get_3_bits_lt m page page_up page_down x y
  have h0 := get_3_bits_testBit m page page_up page_down x y 0 (by norm_num)
  have h1 := get_3_bits_testBit m page page_up page_down x y 1 (by norm_num)
  have h2 := get_3_bits_testBit m page page_up page_down x y 2 (by norm_num)
  have n10 : ¬ (1 : Nat) = 0 := by decide
  have n20 : ¬ (2 : Nat) = 0 := by decide
  have n02 : ¬ (0 : Nat) = 2 := by decide
  have n12 : ¬ (1 : Nat) = 2 := by decide
  refine ⟨by omega, ?_, ?_, ?_⟩
  · rintro ⟨ha, hb⟩
    have e0 : ¬ y % 8 = 0 := by omega
    have e7 : ¬ y % 8 = 7 := by omega
    refine ⟨?_, ?_, ?_⟩
    · rw [h0, window_bit, if_neg e0, if_neg e7]
      rfl
    · rw [h1, window_bit, if_neg e0, if_neg e7]
      congr 1
      omega
    · rw [h2, window_bit, if_neg e0, if_neg e7]
      congr 1
      omega
  · intro hy
    refine ⟨?_, ?_, ?_⟩
    · rw [h0, window_bit, if_pos hy, if_pos rfl]
      cases page_up <;> simp [opt_byte]
    · rw [h1, window_bit, if_pos hy, if_neg n10]
    · rw [h2, window_bit, if_pos hy, if_neg n20]
  · intro hy
    have e0 : ¬ y % 8 = 0 := by omega
    refine ⟨?_, ?_, ?_⟩
    · rw [h0, window_bit, if_neg e0, if_pos hy, if_neg n02]
    · rw [h1, window_bit, if_neg e0, if_pos hy, if_neg n12]
    · rw [h2, window_bit, if_neg e0, if_pos hy, if_pos rfl]
      cases page_down <;> simp [opt_byte]

/-! ## Degenerate boards -/

theorem life_rule_dead_le_two (n : Nat) (h : n ≤ 2) : life_rule false n = false := by
  unfold life_rule
  simp
  omega

theorem toNat_le_one (b : Bool) : b.toNat ≤ 1 := by
  cases b <;> simp

/-- What the step counts on a board of width 1 or of height 1. On every board
of width 1, with any buffer contents, it counts for a cell no neighbour of
another column, so at most 2 (for height != 8: the bits stored for the rows
above and below it in its column), and one `cgol_take_turn` never turns a dead
on-board cell alive. On every board of height 1 it counts for a cell its left
and right on-board neighbours and, besides them, the bits stored for row 1 in
columns `x - 1`, `x`, `x + 1`, although row 1 is not a row of the board; only
when those bits are zero is the count that of the on-board neighbours, at
most 2, and only then does `cgol_take_turn` never turn a dead on-board cell
alive. -/
theorem degenerate_boards_counts (ctx : cgol_s) (hwf : well_formed ctx) (m : Mem) :
    (ctx.width = 1 → ∀ y < ctx.height,
        (alive ctx m 0 (y : Int) = false → alive ctx (cgol_take_turn ctx m) 0 (y : Int) = false)
        ∧ (ctx.height ≠ 8 →
            neighbours (stored ctx m) 0 (y : Int)
                = (stored ctx m 0 ((y : Int) - 1)).toNat + (stored ctx m 0 ((y : Int) + 1)).toNat
            ∧ neighbours (stored ctx m) 0 (y : Int) ≤ 2))
      ∧ (ctx.height = 1 → ∀ x < ctx.width,
          neighbours (stored ctx m) (x : Int) 0
              = (alive ctx m ((x : Int) - 1) 0).toNat + (alive ctx m ((x : Int) + 1) 0).toNat
                + ((stored ctx m ((x : Int) - 1) 1).toNat + (stored ctx m (x : Int) 1).toNat
                  + (stored ctx m ((x : Int) + 1) 1).toNat)
          ∧ ((∀ c < ctx.width, stored ctx m (c : Int) 1 = false) →
              neighbours (stored ctx m) (x : Int) 0 = neighbours (alive ctx m) (x : Int) 0
              ∧ neighbours (alive ctx m) (x : Int) 0 ≤ 2
              ∧ (alive ctx m (x : Int) 0 = false →
                  alive ctx (cgol_take_turn ctx m) (x : Int) 0 = false))) := by
  have hnp := well_formed_pages hwf
  constructor
  · intro hw1 y hy
    have sl : ∀ r : Int, seen ctx m (0 - 1) r = false := fun r =>
      seen_off_left ctx m _ r (by omega)
    have sr : ∀ r : Int, seen ctx m (0 + 1) r = false := fun r =>
      seen_off_right ctx m _ r (by omega)
    have tl : ∀ r : Int, stored ctx m (0 - 1) r = false := by
      intro r
      unfold stored
      rw [decide_eq_false (by omega), Bool.false_and]
    have tr : ∀ r : Int, stored ctx m (0 + 1) r = false := by
      intro r
      unfold stored
      rw [decide_eq_false (by omega), Bool.false_and]
    constructor
    · intro hdead
      have hx : 0 < ctx.width := by omega
      have key := take_turn_alive hwf m hx hy
      have hs := seen_on_board hwf m hx hy
      simp only [Nat.cast_zero] at key hs
      rw [key, hs, hdead]
      apply life_rule_dead_le_two
      unfold neighbours
      simp only [sl, sr, Bool.toNat_false, Nat.zero_add, Nat.add_zero]
      have a1 := toNat_le_one (seen ctx m 0 ((y : Int) - 1))
      have a2 := toNat_le_one (seen ctx m 0 ((y : Int) + 1))
      omega
    · intro _
      have e : neighbours (stored ctx m) 0 (y : Int)
          = (stored ctx m 0 ((y : Int) - 1)).toNat + (stored ctx m 0 ((y : Int) + 1)).toNat := by
        unfold neighbours
        simp only [tl, tr, Bool.toNat_false, Nat.zero_add, Nat.add_zero]
      refine ⟨e, ?_⟩
      rw [e]
      have a1 := toNat_le_one (stored ctx m 0 ((y : Int) - 1))
      have a2 := toNat_le_one (stored ctx m 0 ((y : Int) + 1))
      omega
  · intro hh1 x hx
    have h8 : ctx.height ≠ 8 := by omega
    have up : ∀ c : Int, stored ctx m c (0 - 1) = false := by
      intro c
      unfold stored
      rw [decide_eq_false (by omega), Bool.false_and]
    have aup : ∀ c : Int, alive ctx m c (0 - 1) = false := by
      intro c
      unfold alive
      rw [decide_eq_false (by omega), Bool.false_and]
    have adn : ∀ c : Int, alive ctx m c (0 + 1) = false := by
      intro c
      unfold alive
      rw [decide_eq_false (by omega), Bool.false_and]
    have row0 : ∀ c : Int, stored ctx m c 0 = alive ctx m c 0 := by
      intro c
      unfold stored alive
      by_cases hc : 0 ≤ c ∧ c < ctx.width
      · rw [decide_eq_true (by omega), decide_eq_true (by omega)]
      · rw [decide_eq_false (by omega), decide_eq_false (by omega)]
    have e : neighbours (stored ctx m) (x : Int) 0
        = (alive ctx m ((x : Int) - 1) 0).toNat + (alive ctx m ((x : Int) + 1) 0).toNat
          + ((stored ctx m ((x : Int) - 1) 1).toNat + (stored ctx m (x : Int) 1).toNat
            + (stored ctx m ((x : Int) + 1) 1).toNat) := by
      unfold neighbours
      simp only [up, row0, Bool.toNat_false, Int.zero_add]
      omega
    refine ⟨e, ?_⟩
    intro hz
    have dn : ∀ c : Int, stored ctx m c 1 = false := by
      intro c
      by_cases hc : 0 ≤ c ∧ c < ctx.width
      · have ec : c = (c.toNat : Int) := (Int.toNat_of_nonneg hc.1).symm
        rw [ec]
        exact hz c.toNat (by omega)
      · unfold stored
        rw [decide_eq_false (by omega), Bool.false_and]
    have e2 : neighbours (alive ctx m) (x : Int) 0
        = (alive ctx m ((x : Int) - 1) 0).toNat + (alive ctx m ((x : Int) + 1) 0).toNat := by
      unfold neighbours
      simp only [aup, adn, Bool.toNat_false]
      omega
    have e3 : neighbours (stored ctx m) (x : Int) 0 = neighbours (alive ctx m) (x : Int) 0 := by
      rw [e, e2, dn, dn, dn]
      simp
    have le2 : neighbours (alive ctx m) (x : Int) 0 ≤ 2 := by
      rw [e2]
      have a1 := toNat_le_one (alive ctx m ((x : Int) - 1) 0)
      have a2 := toNat_le_one (alive ctx m ((x : Int) + 1) 0)
      omega
    refine ⟨e3, le2, ?_⟩
    intro hdead
    have hy : 0 < ctx.height := by omega
    have key := take_turn_stored hwf h8 m hx hy
    simp only [Nat.cast_zero] at key
    rw [key, hdead, e3]
    exact life_rule_dead_le_two _ le2

/-- The theorem above on the 1x3 board with rows 0 and 2 alive: the dead cell
`(0, 1)` has two live neighbours and stays dead. -/
theorem degenerate_boards_counts_witness :
    well_formed (board_at_zero 1 3)
      ∧ alive (board_at_zero 1 3) (cgol_take_turn (board_at_zero 1 3) (mem_of [5])) 0 ((1 : Nat) : Int)
          = false :=
  ⟨by decide,
    ((degenerate_boards_counts (board_at_zero 1 3) (by decide) (mem_of [5])).1 (by decide) 1
      (by decide)).1 (by decide)⟩

/-- C11, evaluated on the 3x1 board with state `[2, 2, 2]` (row 0 dead, the
unused bit of row 1 set in each column): the dead cell `(1, 0)` has no live
neighbour on the board and is alive after `cgol_take_turn`. On a board of
height 1 the step counts the bits stored for row 1 as neighbours. -/
theorem height_one_birth_from_unused_row :
    well_formed (board_at_zero 3 1) ∧ (board_at_zero 3 1).height = 1
      ∧ alive (board_at_zero 3 1) (mem_of [2, 2, 2]) 1 0 = false
      ∧ neighbours (alive (board_at_zero 3 1) (mem_of [2, 2, 2])) 1 0 = 0
      ∧ alive (board_at_zero 3 1) (cgol_take_turn (board_at_zero 3 1) (mem_of [2, 2, 2])) 1 0
          = true := by
  decide

/-! ## Lifecycle -/

theorem init_full (malloc : Nat → Option Nat) (g : globals) (width height : Int)
    (static_storage : Option Nat) (hfull : CGOL_MAX_GAMES ≤ g.games_alloced) :
    init malloc g width height static_storage = some (none, g) := by
  unfold init
  by_cases hw : width ≤ 0
  · rw [if_pos hw]
  · rw [if_neg hw]
    by_cases hh : height ≤ 0
    · rw [if_pos hh]
    · rw [if_neg hh, if_pos (by omega)]

theorem init_counter (malloc : Nat → Option Nat) (g : globals) (width height : Int)
    (static_storage : Option Nat) (r : Option Nat × globals)
    (h : init malloc g width height static_storage = some r) :
    g.games_alloced ≤ r.2.games_alloced := by
  by_cases hw : 0 < width
  · by_cases hh : 0 < height
    · by_cases hg : g.games_alloced < CGOL_MAX_GAMES
      · rw [init_past_guards malloc g width height static_storage hw hh hg _ rfl] at h
        generalize (height.toNat >>> 3) + (if height.toNat &&& 0x7 ≠ 0 then 1 else 0) = np at h
        cases static_storage with
        | some p =>
          simp only at h
          by_cases hov : width * (np : Int) > INT_MAX
          · rw [if_pos hov] at h
            exact absurd h (by simp)
          · rw [if_neg hov] at h
            injection h with h
            rw [← h]
            show g.games_alloced ≤ g.games_alloced + 1
            omega
        | none =>
          simp only at h
          by_cases hov : 2 * width * (np : Int) > INT_MAX
          · rw [if_pos hov] at h
            exact absurd h (by simp)
          · rw [if_neg hov] at h
            cases hmal : malloc (2 * width.toNat * np) with
            | none =>
              rw [hmal] at h
              injection h with h
              rw [← h]
              show g.games_alloced ≤ g.games_alloced + 1
              omega
            | some p =>
              rw [hmal] at h
              simp only at h
              by_cases hov2 : width * (np : Int) > INT_MAX
              · rw [if_pos hov2] at h
                exact absurd h (by simp)
              · rw [if_neg hov2] at h
                injection h with h
                rw [← h]
                show g.games_alloced ≤ g.games_alloced + 1
                omega
      · rw [init_full malloc g width height static_storage (by omega)] at h
        injection h with h
        rw [← h]
    · unfold init at h
      by_cases hw0 : width ≤ 0
      · omega
      · rw [if_neg hw0, if_pos (by omega)] at h
        injection h with h
        rw [← h]
  · unfold init at h
    rw [if_pos (by omega)] at h
    injection h with h
    rw [← h]

theorem run_call_counter (g g1 : globals) (c : lifecycle_call) (h : run_call g c = some g1) :
    g.games_alloced ≤ g1.games_alloced := by
  cases c with
  | call_init malloc width height =>
    simp only [run_call, cgol_init, Option.map_eq_some'] at h
    obtain ⟨r, hr, e⟩ := h
    rw [← e]
    exact init_counter _ _ _ _ _ _ hr
  | call_init_static malloc width height static_storage =>
    simp only [run_call, Option.map_eq_some'] at h
    obtain ⟨r, hr, e⟩ := h
    rw [← e]
    unfold cgol_init_static at hr
    cases static_storage with
    | none =>
      simp only at hr
      injection hr with hr
      rw [← hr]
    | some p => exact init_counter _ _ _ _ _ _ hr
  | call_free ctx =>
    simp only [run_call, Option.map_eq_some'] at h
    obtain ⟨r, hr, e⟩ := h
    rw [← e]
    unfold cgol_free at hr
    cases ctx with
    | none =>
      simp only at hr
      injection hr with hr
      rw [← hr]
    | some i =>
      simp only at hr
      cases hf : free g.heap (g.games i).internal_storage with
      | none =>
        rw [hf] at hr
        exact absurd hr (by simp)
      | some heap =>
        rw [hf] at hr
        simp only at hr
        injection hr with hr
        rw [← hr]

theorem run_calls_counter (cs : List lifecycle_call) (g g2 : globals)
    (h : run_calls g cs = some g2) : g.games_alloced ≤ g2.games_alloced := by
  induction cs generalizing g with
  | nil =>
    simp only [run_calls] at h
    injection h with h
    rw [h]
  | cons c cs ih =>
    simp only [run_calls] at h
    cases h1 : run_call g c with
    | none =>
      rw [h1] at h
      exact absurd h (by simp)
    | some g1 =>
      rw [h1] at h
      simp only [Option.bind] at h
      exact Nat.le_trans (run_call_counter g g1 c h1) (ih g1 h)

theorem init_success_counter (malloc : Nat → Option Nat) (g : globals) (width height : Int)
    (static_storage : Option Nat) (i : Nat) (g1 : globals)
    (h : init malloc g width height static_storage = some (some i, g1)) :
    g1.games_alloced = g.games_alloced + 1 := by
  by_cases hok : 0 < width ∧ 0 < height ∧ g.games_alloced < CGOL_MAX_GAMES
  · obtain ⟨hw, hh, hg⟩ := hok
    rw [init_past_guards malloc g width height static_storage hw hh hg _ rfl] at h
    generalize (height.toNat >>> 3) + (if height.toNat &&& 0x7 ≠ 0 then 1 else 0) = np at h
    cases static_storage with
    | some p =>
      simp only at h
      by_cases hov : width * (np : Int) > INT_MAX
      · rw [if_pos hov] at h
        exact absurd h (by simp)
      · rw [if_neg hov] at h
        simp only [Option.some.injEq, Prod.mk.injEq] at h
        rw [← h.2]
    | none =>
      simp only at h
      by_cases hov : 2 * width * (np : Int) > INT_MAX
      · rw [if_pos hov] at h
        exact absurd h (by simp)
      · rw [if_neg hov] at h
        cases hmal : malloc (2 * width.toNat * np) with
        | none =>
          rw [hmal] at h
          simp at h
        | some p =>
          rw [hmal] at h
          simp only at h
          by_cases hov2 : width * (np : Int) > INT_MAX
          · rw [if_pos hov2] at h
            exact absurd h (by simp)
          · rw [if_neg hov2] at h
            simp only [Option.some.injEq, Prod.mk.injEq] at h
            rw [← h.2]
  · have hnone : init malloc g width height static_storage = some (none, g) := by
      unfold init
      by_cases hw : width ≤ 0
      · rw [if_pos hw]
      · rw [if_neg hw]
        by_cases hh : height ≤ 0
        · rw [if_pos hh]
        · rw [if_neg hh, if_pos (by omega)]
    rw [hnone] at h
    simp at h

/-- C12. Create fails once the board table is full, and the slot counter is
monotonic and never reclaimed: after a successful creation (`CGOL_MAX_GAMES`
is 1) and any sequence of further `cgol_init`, `cgol_init_static` and
`cgol_free` calls, `games_alloced` has not decreased and every `cgol_init` and
`cgol_init_static` returns the NULL handle and leaves the globals as they
are. -/
theorem create_fails_once_full (malloc : Nat → Option Nat) (g0 : globals) (width height : Int)
    (static_storage : Option Nat) (i : Nat) (g1 : globals)
    (hs : init malloc g0 width height static_storage = some (some i, g1))
    (calls : List lifecycle_call) (g2 : globals) (hr : run_calls g1 calls = some g2)
    (malloc2 : Nat → Option Nat) (w2 h2 : Int) (s2 : Option Nat) :
    CGOL_MAX_GAMES = 1 ∧ g1.games_alloced ≤ g2.games_alloced
      ∧ cgol_init malloc2 g2 w2 h2 = some (none, g2)
      ∧ cgol_init_static malloc2 g2 w2 h2 s2 = some (none, g2) := by
  have h1 := init_success_counter _ _ _ _ _ _ _ hs
  have h2' := run_calls_counter calls g1 g2 hr
  have hfull : CGOL_MAX_GAMES ≤ g2.games_alloced := by
    show 1 ≤ g2.games_alloced
    omega
  refine ⟨rfl, h2', init_full _ _ _ _ _ hfull, ?_⟩
  unfold cgol_init_static
  cases s2 with
  | none => rfl
  | some p => exact init_full _ _ _ _ _ hfull

/-- Witness of C12: `cgol_init(128, 64)` at program start, `cgol_free` of its
handle, then `cgol_init(128, 64)` again. -/
theorem create_fails_once_full_witness :
    init (fun _ => some 100) globals_at_start 128 64 none = some (some 0, globals_after_128x64)
      ∧ run_calls globals_after_128x64 [lifecycle_call.call_free (some 0)]
          = some globals_after_free
      ∧ cgol_init (fun _ => some 200) globals_after_free 128 64
          = some (none, globals_after_free) :=
  ⟨rfl, rfl,
    (create_fails_once_full (fun _ => some 100) globals_at_start 128 64 none 0
      globals_after_128x64 rfl [lifecycle_call.call_free (some 0)] globals_after_free rfl
      (fun _ => some 200) 128 64 none).2.2.1⟩

/-- C13, evaluated on `cgol_init(3, 5)` at program start when `malloc` returns
`NULL`: the call returns the NULL handle with `games_alloced` advanced from 0
to 1; a following `cgol_init_static(3, 5, storage)` returns the NULL handle,
while without the failed call it returns the handle of slot 0. -/
theorem failed_malloc_consumes_slot :
    init (fun _ => none) globals_at_start 3 5 none = some (none, globals_after_failed_malloc)
      ∧ globals_at_start.games_alloced = 0 ∧ globals_after_failed_malloc.games_alloced = 1
      ∧ cgol_init_static (fun _ => none) globals_after_failed_malloc 3 5 (some 0)
          = some (none, globals_after_failed_malloc)
      ∧ (cgol_init_static (fun _ => none) globals_at_start 3 5 (some 0)).map (fun r => r.1)
          = some (some 0) :=
  ⟨rfl, rfl, rfl, rfl, rfl⟩

/-- C14. `cgol_free` on a handle whose board owns a live block releases that
block and leaves NULL in the caller's handle; on a handle whose board uses
static storage it only leaves NULL in the handle; on a handle that is already
NULL it changes nothing. Hence calling it twice on the same handle variable
has the same effect as calling it once. -/
theorem free_once_or_twice (g : globals) :
    (∀ i p, (g.games i).internal_storage = some p → (∃ b ∈ g.heap, b.1 = p) →
        cgol_free g (some i)
          = some (none, { g with heap := g.heap.filter (fun b => b.1 ≠ p) }))
      ∧ (∀ i, (g.games i).internal_storage = none → cgol_free g (some i) = some (none, g))
      ∧ cgol_free g none = some (none, g)
      ∧ (∀ ctx, (cgol_free g ctx).bind (fun r => cgol_free r.2 r.1) = cgol_free g ctx) := by
  refine ⟨?_, ?_, rfl, ?_⟩
  · intro i p hp hlive
    have hany : g.heap.any (fun b => decide (b.1 = p)) = true := by
      rw [List.any_eq_true]
      obtain ⟨b, hb, e⟩ := hlive
      exact ⟨b, hb, decide_eq_true e⟩
    unfold cgol_free
    simp only
    rw [hp]
    unfold free
    simp only
    rw [if_pos hany]
  · intro i hp
    unfold cgol_free
    simp only
    rw [hp]
    rfl
  · intro ctx
    cases h : cgol_free g ctx with
    | none => rfl
    | some r =>
      have hr1 : r.1 = none := by
        unfold cgol_free at h
        cases ctx with
        | none =>
          simp only at h
          injection h with h
          rw [← h]
        | some i =>
          simp only at h
          cases hf : free g.heap (g.games i).internal_storage with
          | none =>
            rw [hf] at h
            exact absurd h (by simp)
          | some heap =>
            rw [hf] at h
            simp only at h
            injection h with h
            rw [← h]
      simp only [Option.bind]
      rw [hr1]
      cases r with
      | mk a b =>
        simp only at hr1
        rw [hr1]
        rfl

/-- After `cgol_init(128, 64)`, `cgol_free` of the handle releases the block
at address 100; a second call with the handle variable, now NULL, changes
nothing. -/
theorem cgol_free_example :
    cgol_free globals_after_128x64 (some 0) = some (none, globals_after_free)
      ∧ cgol_free globals_after_free none = some (none, globals_after_free) :=
  ⟨rfl, rfl⟩

/-- C15 (as amended). `cgol_take_turn` and `cgol_get_state` do not check their
handle: called with a non-NULL handle they act on the board it points to and
cannot fail; called with the NULL handle they dereference it, which is
undefined. -/
theorem handle_not_checked (g : globals) (m : Mem) (i : Nat) :
    cgol_take_turn_ptr g (some i) m = some (cgol_take_turn (g.games i) m)
      ∧ cgol_get_state_ptr g (some i) = some (g.games i).state
      ∧ cgol_take_turn_ptr g none m = none
      ∧ cgol_get_state_ptr g none = none :=
  ⟨rfl, rfl, rfl, rfl⟩

/-- Counterexample to C15 as stated: with the NULL handle neither function
returns; there is no error indication and no return without effect. -/
theorem handle_not_checked_counterexample :
    (cgol_take_turn_ptr globals_at_start none (mem_of [])).isSome = false
      ∧ (cgol_get_state_ptr globals_at_start none).isSome = false :=
  ⟨rfl, rfl⟩

/-! ## The display driver -/

/-- The guards of `ssd1306_send_page_data`: for a non-NULL handle the call is
rejected exactly when `page_start > 63` or `column_start > 127`. -/
theorem send_page_data_guard (i : Nat) (page_start column_start : Nat) (data : List Nat) :
    ssd1306_send_page_data (some i) page_start column_start data = .invalid_arg
      ↔ page_start > 63 ∨ column_start > 127 := by
  unfold ssd1306_send_page_data
  rw [if_neg (by simp)]
  by_cases hp : page_start > 63
  · rw [if_pos hp]
    simp [hp]
  · rw [if_neg hp]
    by_cases hc : column_start > 127
    · rw [if_pos hc]
      simp [hc]
    · rw [if_neg hc]
      simp [hp, hc]

/-- C16, evaluated for a non-NULL handle: `page_start = 8` and `page_start =
63` are accepted and the page command bytes `0xB8` and `0xBF` are sent;
`page_start = 64` and `column_start = 128` are rejected. The sibling
`ssd1306_set_page_address` rejects page 8. -/
theorem send_page_data_accepts_page_8 :
    ssd1306_send_page_data (some 0) 8 0 []
        = .transmitted [0x78, 0x80, 0x20, 0x80, 0x02, 0x80, 0x00, 0x80, 0x00, 0x80, 0x00,
            0x80, 0xB8, 0x40]
      ∧ ssd1306_send_page_data (some 0) 63 0 []
        = .transmitted [0x78, 0x80, 0x20, 0x80, 0x02, 0x80, 0x00, 0x80, 0x00, 0x80, 0x00,
            0x80, 0xBF, 0x40]
      ∧ ssd1306_send_page_data (some 0) 64 0 [] = .invalid_arg
      ∧ ssd1306_send_page_data (some 0) 0 128 [] = .invalid_arg
      ∧ ssd1306_set_page_address (some 0) 8 8 = .invalid_arg := by
  decide

/-- C17 (as amended). `ssd1306_set_mux_ratio` accepts exactly the multiplex
ratios 16..64: for a non-NULL handle it returns `ESP_ERR_INVALID_ARG`, without
sending, if and only if `mux_ratio < 16` or `mux_ratio > 64`, and otherwise
sends the two command bytes `0xA8`, `mux_ratio - 1` (after the address byte
`0x78` and the control byte `0x00`). -/
theorem set_mux_ratio_range (i : Nat) (mux_ratio : Int) :
    (ssd1306_set_mux_ratio (some i) mux_ratio = .invalid_arg
        ↔ mux_ratio < 16 ∨ mux_ratio > 64)
      ∧ (¬ (mux_ratio < 16 ∨ mux_ratio > 64) →
          ssd1306_set_mux_ratio (some i) mux_ratio
            = .transmitted [0x78, 0x00, 0xA8, (mux_ratio - 1).toNat]) := by
  unfold ssd1306_set_mux_ratio ssd1306_send_command
  by_cases h1 : mux_ratio < 16
  · rw [if_pos h1]
    simp [h1]
  · rw [if_neg h1]
    by_cases h2 : mux_ratio > 64
    · rw [if_pos h2]
      simp [h2]
    · rw [if_neg h2, if_neg (by simp), if_neg (by simp)]
      have e : (mux_ratio - 1) % 256 = mux_ratio - 1 := Int.emod_eq_of_lt (by omega) (by omega)
      rw [e]
      simp
      omega

/-- Counterexample to C17 as stated: the multiplex ratios 1 and 15 lie in
1..64 and are rejected. -/
theorem set_mux_ratio_counterexample :
    ssd1306_set_mux_ratio (some 0) 1 = .invalid_arg
      ∧ ssd1306_set_mux_ratio (some 0) 15 = .invalid_arg
      ∧ ssd1306_set_mux_ratio (some 0) 16 = .transmitted [0x78, 0x00, 0xA8, 0x0F] := by
  decide

/-! ## The rule on 3-bit windows -/

/-- The result of `apply_rules` is decided by the centre bit and the value of
`neighbors` (source lines 113 to 117). -/
theorem apply_rules_from_neighbors (l m r : Nat) :
    apply_rules l m r
      = (if !decide ((m &&& 0x2) > 0) && decide (apply_rules_neighbors l m r = 3) then true
         else if decide ((m &&& 0x2) > 0) && decide (apply_rules_neighbors l m r > 3) then false
         else if decide ((m &&& 0x2) > 0) && decide (apply_rules_neighbors l m r < 2) then false
         else decide ((m &&& 0x2) > 0)) :=
  rfl

set_option maxRecDepth 100000 in
theorem apply_rules_neighbors_table : ∀ l < 8, ∀ m < 8, ∀ r < 8,
    apply_rules_neighbors l m r = pop3 l + pop3 r + (m.testBit 0).toNat + (m.testBit 2).toNat := by
  decide

set_option maxRecDepth 100000 in
theorem apply_rules_neighbors_le : ∀ l < 8, ∀ m < 8, ∀ r < 8,
    apply_rules_neighbors l m r ≤ 8 := by
  decide

set_option maxRecDepth 100000 in
theorem apply_rules_neighbors_centre : ∀ l < 8, ∀ m < 8, ∀ r < 8,
    apply_rules_neighbors l (m ^^^ 2) r = apply_rules_neighbors l m r := by
  decide

set_option maxRecDepth 100000 in
theorem apply_rules_result_table : ∀ l < 8, ∀ m < 8, ∀ r < 8,
    apply_rules l m r
      = (m.testBit 1
          && (decide (apply_rules_neighbors l m r = 2) || decide (apply_rules_neighbors l m r = 3))
        || !m.testBit 1 && decide (apply_rules_neighbors l m r = 3)) := by
  decide

theorem pop3_digits (b : Nat) (hb : b < 8) : pop3 b = (Nat.digits 2 b).sum := by
  interval_cases b <;> simp [pop3] <;> decide

/-- C21. For all 3-bit windows `left`, `middle`, `right` in `[0, 7]`,
`apply_rules` computes `n = popcount(left) + popcount(right) + bit 0 of middle
+ bit 2 of middle`, with `0 <= n <= 8`, the centre bit (bit 1 of `middle`) not
entering the count, and returns true exactly when (centre alive and `n` is 2
or 3) or (centre dead and `n = 3`). The popcount is the sum of the binary
digits; both counting loops have ended within their 8 iterations. -/
theorem apply_rules_counts (l m r : Nat) (hl : l ≤ 7) (hm : m ≤ 7) (hr : r ≤ 7) :
    apply_rules_neighbors l m r
        = (Nat.digits 2 l).sum + (Nat.digits 2 r).sum + (m.testBit 0).toNat + (m.testBit 2).toNat
      ∧ 0 ≤ apply_rules_neighbors l m r ∧ apply_rules_neighbors l m r ≤ 8
      ∧ apply_rules_neighbors l (m ^^^ 2) r = apply_rules_neighbors l m r
      ∧ (apply_rules l m r = true ↔
          (m.testBit 1 = true
              ∧ (apply_rules_neighbors l m r = 2 ∨ apply_rules_neighbors l m r = 3))
            ∨ (m.testBit 1 = false ∧ apply_rules_neighbors l m r = 3))
      ∧ (∀ extra n, count_loop (8 + extra) l n = count_loop 8 l n
          ∧ count_loop (8 + extra) r n = count_loop 8 r n) := by
  have h1 := apply_rules_neighbors_table l (by omega) m (by omega) r (by omega)
  have h2 := apply_rules_neighbors_le l (by omega) m (by omega) r (by omega)
  have h3 := apply_rules_neighbors_centre l (by omega) m (by omega) r (by omega)
  have h4 := apply_rules_result_table l (by omega) m (by omega) r (by omega)
  refine ⟨?_, Nat.zero_le _, h2, h3, ?_, ?_⟩
  · rw [h1, pop3_digits l (by omega), pop3_digits r (by omega)]
  · rw [h4]
    cases m.testBit 1 <;> simp
  · intro extra n
    exact ⟨count_loop_fuel 8 extra l n (by norm_num; omega),
      count_loop_fuel 8 extra r n (by norm_num; omega)⟩

/-- Witness of C21: a live centre with the left window full and one cell
below, 4 neighbours, dies. -/
theorem apply_rules_counts_witness :
    (7 : Nat) ≤ 7 ∧ (6 : Nat) ≤ 7 ∧ (0 : Nat) ≤ 7
      ∧ apply_rules_neighbors 7 6 0 ≤ 8
      ∧ apply_rules_neighbors 7 6 0 = 4 ∧ apply_rules 7 6 0 = false :=
  ⟨by decide, by decide, by decide,
    (apply_rules_counts 7 6 0 (by decide) (by decide) (by decide)).2.2.1, by decide, by decide⟩

/-! ## The scratch buffer -/

/-- The stored bits are those of the state bytes: two memories with the same
state bytes store the same bit for every position. -/
theorem stored_congr {ctx : cgol_s} (_h : well_formed ctx) (m1 m2 : Mem)
    (hstate : ∀ i < ctx.width * ctx.num_pages, m1 (ctx.state + i) = m2 (ctx.state + i))
    (c r : Int) : stored ctx m1 c r = stored ctx m2 c r := by
  unfold stored
  by_cases hb : 0 ≤ c ∧ c < ctx.width ∧ 0 ≤ r ∧ r < 8 * (ctx.num_pages : Int)
  · have hq : r.toNat / 8 < ctx.num_pages := by omega
    have hc : c.toNat < ctx.width := by omega
    have hi : r.toNat / 8 * ctx.width + c.toNat < ctx.width * ctx.num_pages := by
      rw [Nat.mul_comm ctx.width]
      exact page_le hq hc
    have e := hstate _ hi
    rw [← Nat.add_assoc] at e
    unfold state_bit
    rw [e]
  · rw [decide_eq_false hb, Bool.false_and, Bool.false_and]

/-- Unless the board is a single full page, the state bytes after the step
are determined by the state bytes before it alone. -/
theorem take_turn_depends_on_state {ctx : cgol_s} (h : well_formed ctx) (h8 : ctx.height ≠ 8)
    (m1 m2 : Mem)
    (hstate : ∀ i < ctx.width * ctx.num_pages, m1 (ctx.state + i) = m2 (ctx.state + i)) :
    ∀ i < ctx.width * ctx.num_pages,
      cgol_take_turn ctx m1 (ctx.state + i) = cgol_take_turn ctx m2 (ctx.state + i) := by
  intro i hi
  obtain ⟨hp, hx, e⟩ := state_addr h hi
  have hbyte := hstate i hi
  rw [e] at hbyte ⊢
  apply byte_ext (take_turn_lt h m1 hp hx) (take_turn_lt h m2 hp hx)
  intro j hj
  rw [take_turn_bit h m1 hp hx hj, take_turn_bit h m2 hp hx hj]
  by_cases hlt : 8 * (i / ctx.width) + j < ctx.height
  · rw [if_pos hlt, if_pos hlt]
    have hs : ∀ c r, r ≤ ((8 * (i / ctx.width) + j : Nat) : Int) + 1 →
        seen ctx m1 c r = seen ctx m2 c r := by
      intro c r hr
      rw [seen_eq_stored h h8 m1 c r (by omega), seen_eq_stored h h8 m2 c r (by omega)]
      exact stored_congr h m1 m2 hstate c r
    rw [neighbours_congr (seen ctx m1) (seen ctx m2) _ _ hs, hs _ _ (by omega)]
  · rw [if_neg hlt, if_neg hlt, hbyte]

/-- C22. The result of a step does not depend on what the scratch buffer held
before: for every board and any two memories that differ at most in the bytes
of the scratch buffer (same state bytes, same memory elsewhere), the memory
after `cgol_take_turn` is the same, in particular the state bytes, and in
both runs the scratch buffer ends up equal to the pre-step state. -/
theorem take_turn_ignores_scratch (ctx : cgol_s) (hwf : well_formed ctx) (m1 m2 : Mem)
    (hsame : ∀ a, a < ctx.temp ∨ ctx.temp + ctx.width * ctx.num_pages ≤ a → m1 a = m2 a) :
    (∀ i < ctx.width * ctx.num_pages,
        cgol_take_turn ctx m1 (ctx.state + i) = cgol_take_turn ctx m2 (ctx.state + i))
      ∧ (∀ a, cgol_take_turn ctx m1 a = cgol_take_turn ctx m2 a)
      ∧ (∀ i < ctx.width * ctx.num_pages, cgol_take_turn ctx m1 (ctx.temp + i) = m1 (ctx.state + i))
      ∧ (∀ i < ctx.width * ctx.num_pages,
          cgol_take_turn ctx m2 (ctx.temp + i) = m2 (ctx.state + i)) := by
  have ht := hwf.2.2.2
  have hcopy : memcpy m1 ctx.temp ctx.state (ctx.num_pages * ctx.width)
      = memcpy m2 ctx.temp ctx.state (ctx.num_pages * ctx.width) := by
    funext a
    unfold memcpy
    rw [Nat.mul_comm ctx.num_pages]
    by_cases hin : ctx.temp ≤ a ∧ a < ctx.temp + ctx.width * ctx.num_pages
    · rw [if_pos hin, if_pos hin]
      exact hsame _ (Or.inl (by omega))
    · rw [if_neg hin, if_neg hin]
      exact hsame _ (by omega)
  have hall : ∀ a, cgol_take_turn ctx m1 a = cgol_take_turn ctx m2 a := by
    intro a
    rw [cgol_take_turn_eq, cgol_take_turn_eq, hcopy]
  have hscratch : ∀ m : Mem, ∀ i < ctx.width * ctx.num_pages,
      cgol_take_turn ctx m (ctx.temp + i) = m (ctx.state + i) := by
    intro m i hi
    rw [take_turn_frame hwf m _ (Or.inr (by omega)),
      memcpy_dst _ _ _ _ _ (by rw [Nat.mul_comm]; exact hi)]
  exact ⟨fun i _ => hall _, hall, hscratch m1, hscratch m2⟩

/-- Witness of C22 on the 1x2 board with state byte `0b111`: the scratch byte
is 0 in one run and 9 in the other. -/
theorem take_turn_ignores_scratch_witness :
    well_formed (board_at_zero 1 2)
      ∧ (mem_of [7, 0]) 1 = 0 ∧ (mem_of [7, 9]) 1 = 9
      ∧ cgol_take_turn (board_at_zero 1 2) (mem_of [7, 0]) ((board_at_zero 1 2).state + 0)
          = cgol_take_turn (board_at_zero 1 2) (mem_of [7, 9]) ((board_at_zero 1 2).state + 0)
      ∧ cgol_take_turn (board_at_zero 1 2) (mem_of [7, 9]) ((board_at_zero 1 2).temp + 0)
          = (mem_of [7, 9]) ((board_at_zero 1 2).state + 0) :=
  have hsame : ∀ a, a < (board_at_zero 1 2).temp
      ∨ (board_at_zero 1 2).temp + (board_at_zero 1 2).width * (board_at_zero 1 2).num_pages ≤ a →
      (mem_of [7, 0]) a = (mem_of [7, 9]) a := by
    intro a ha
    have h1 : (board_at_zero 1 2).temp = 1 := by decide
    have h2 : (board_at_zero 1 2).width * (board_at_zero 1 2).num_pages = 1 := by decide
    rw [h1, h2] at ha
    rcases a with _ | _ | a
    · rfl
    · omega
    · rfl
  have h := take_turn_ignores_scratch (board_at_zero 1 2) (by decide) (mem_of [7, 0])
    (mem_of [7, 9]) hsame
  ⟨by decide, by decide, by decide, h.1 0 (by decide), h.2.2.2 0 (by decide)⟩

end Cgol
